import Mathlib

/-!
Verification of the carta-schema compiler and applier.

This file shallowly embeds the Rust sources of the repository
(src/src/tokeniser.rs, parser.rs, type_check.rs, correctness.rs,
builtin_types.rs, apply.rs, error.rs, lib.rs) into Lean and proves or
refutes the frozen claims about them.

Embedding conventions:
- Rust machine integers are embedded as `Nat` with explicit reductions
  modulo powers of two where the width matters.
- A Rust byte slice is embedded as `List Nat` whose elements stand for
  `u8` values; decoders reduce each byte modulo 256 exactly where the
  Rust type system guarantees `u8`.
- `HashMap<String, StructDefn>` is embedded as an insertion-ordered
  `List StructDefn` (the key of every entry equals the `name` field of
  its value in the source).  Rust iterates a `HashMap` in an
  unspecified order; the embedding fixes insertion order.  Every fact
  proved below about the outcome of a map iteration is order-insensitive.
- Code that can panic is embedded in an `Option`/`RRes` layer whose
  `none`/`.panic` value marks the panic; code that can loop is driven
  by explicit fuel.
-/

namespace Carta

set_option maxRecDepth 100000

/-- Decidable equality for `Except`, used to evaluate pipeline results on
concrete inputs. -/
instance {ε α : Type} [DecidableEq ε] [DecidableEq α] :
    DecidableEq (Except ε α) := fun x y =>
  match x, y with
  | .error a, .error b =>
    if h : a = b then .isTrue (by rw [h]) else .isFalse (by simp [h])
  | .error _, .ok _ => .isFalse (by simp)
  | .ok _, .error _ => .isFalse (by simp)
  | .ok a, .ok b =>
    if h : a = b then .isTrue (by rw [h]) else .isFalse (by simp [h])

/-! ## Models of Rust `char` classification (std library behaviour)

The tokeniser calls `char::is_whitespace`, `char::is_alphabetic`,
`char::is_numeric` and `char::to_digit(10)` from the Rust standard
library.  `is_whitespace` is embedded completely (the Unicode
White_Space set is small and closed).  `is_alphabetic` and `is_numeric`
are embedded exactly for all characters up to U+00FF (ASCII and
Latin-1) and modelled as `false` above U+00FF; the full Unicode
Alphabetic/Numeric tables are not reproduced.  Every concrete character
appearing in a theorem below lies in the exact range, and universally
quantified statements are relative to this model. -/

/-- Model of Rust `char::is_whitespace`: the full Unicode White_Space set. -/
def rustIsWhitespace (c : Char) : Bool :=
  let n := c.toNat
  (9 ≤ n && n ≤ 13) || n == 32 || n == 0x85 || n == 0xA0 || n == 0x1680 ||
  (0x2000 ≤ n && n ≤ 0x200A) || n == 0x2028 || n == 0x2029 || n == 0x202F ||
  n == 0x205F || n == 0x3000

/-- Model of Rust `char::is_alphabetic` (Unicode Alphabetic): exact on
U+0000..U+00FF (ASCII letters plus the Latin-1 letters U+00AA, U+00B5,
U+00BA, U+00C0-U+00D6, U+00D8-U+00F6, U+00F8-U+00FF); modelled as
`false` above U+00FF. -/
def rustIsAlphabetic (c : Char) : Bool :=
  let n := c.toNat
  (65 ≤ n && n ≤ 90) || (97 ≤ n && n ≤ 122) || n == 0xAA || n == 0xB5 ||
  n == 0xBA || (0xC0 ≤ n && n ≤ 0xD6) || (0xD8 ≤ n && n ≤ 0xF6) ||
  (0xF8 ≤ n && n ≤ 0xFF)

/-- Model of Rust `char::is_numeric` (Unicode Nd, Nl, No): exact on
U+0000..U+00FF (ASCII digits plus U+00B2, U+00B3, U+00B9,
U+00BC-U+00BE); modelled as `false` above U+00FF. -/
def rustIsNumeric (c : Char) : Bool :=
  let n := c.toNat
  (48 ≤ n && n ≤ 57) || n == 0xB2 || n == 0xB3 || n == 0xB9 ||
  (0xBC ≤ n && n ≤ 0xBE)

/-- Model of Rust `char::to_digit(10)`: ASCII digits only. -/
def rustToDigit10 (c : Char) : Option Nat :=
  if 48 ≤ c.toNat && c.toNat ≤ 57 then some (c.toNat - 48) else none

/-! ## Error model (src/src/error.rs)

The source file defines `CartaError { line_no, code }`.  The parser
calls `CartaError::new_incomplete_input`, a constructor that does not
exist in src/src/error.rs (the snapshot mixes revisions); the
`IncompleteInput` code itself is modelled from the spec taxonomy. -/

inductive CartaErrorCode where
  | UnknownType (name : String)
  | DuplicateType (name : String)
  | RecursiveTypes (names : List String)
  | UnknownSymbol (c : Char)
  | UnexpectedSymbol (expected : String) (got : Char)
  | UnclosedBlockComment
  | ParseError (expected : String) (got : String)
  /-- Modelled from the spec: `IncompleteInput` is listed in the spec's
  error taxonomy and constructed by src/src/parser.rs via
  `new_incomplete_input`, but the variant is absent from
  src/src/error.rs. -/
  | IncompleteInput
  | MissingRootElement
  | BadArrayLen (id : String)
  | BadArrayLenType (id : String)
  | LeadingZero
  | IntegerTooLarge
  deriving DecidableEq, Repr

structure CartaError where
  line_no : Nat
  code : CartaErrorCode
  deriving DecidableEq, Repr

/-! ## Tokens (src/src/tokeniser.rs) -/

inductive TokenType where
  | Word | Colon | NewLine | OpenBrace | CloseBrace | Comma
  | OpenBracket | CloseBracket | Semicolon | Integer
  deriving DecidableEq, Repr

inductive TokenValue where
  | StringVal (s : String)
  | IntVal (i : Nat)
  deriving DecidableEq, Repr

structure Token where
  kind : TokenType
  line_no : Nat
  value : TokenValue
  deriving DecidableEq, Repr

/-- `Token::get_string`: the string value, or the decimal rendering of an
integer value. -/
def Token.get_string (t : Token) : String :=
  match t.value with
  | .StringVal s => s
  | .IntVal i => toString i

/-- `Token::get_int`: panics (`none`) when the value is a string. -/
def Token.get_int (t : Token) : Option Nat :=
  match t.value with
  | .StringVal _ => none
  | .IntVal i => some i

/-! ## Builtin type registry (src/src/builtin_types.rs) -/

inductive BuiltinTypeClass where
  | Integer | Float | Text
  deriving DecidableEq, Repr

/-- Mirrors `CartaBuiltinType { size, value, class }`.  The `value`
closure can panic in Rust (it indexes the data slice); the embedding
returns `none` for the panic. -/
structure CartaBuiltinType where
  size : Nat
  value : List Nat → Option String
  tclass : BuiltinTypeClass

/-- First `k` elements, or `none` when fewer are available (the Rust
decoders panic in that case: `data[0]` / `to_arr` out of bounds). -/
def takeExact (k : Nat) : List Nat → Option (List Nat)
  | [] => if k = 0 then some [] else none
  | b :: rest =>
    match k with
    | 0 => some []
    | j + 1 => (takeExact j rest).map (fun l => b :: l)

/-- Little-endian assembly of `u8` values into a `Nat`. -/
def natFromLE : List Nat → Nat
  | [] => 0
  | b :: rest => b % 256 + 256 * natFromLE rest

/-- Big-endian assembly of `u8` values into a `Nat`. -/
def natFromBE (bs : List Nat) : Nat :=
  bs.foldl (fun acc b => acc * 256 + b % 256) 0

/-- Decimal rendering of a `k`-byte two's-complement value, as produced
by `iN::to_string` / `uN::to_string` in the decoders: unsigned values
render in decimal, signed values at or above `2^(8k-1)` render as the
negation of their complement. -/
def intRender (signed : Bool) (k : Nat) (n : Nat) : String :=
  if signed && decide (2 ^ (8 * k - 1) ≤ n) then
    "-" ++ toString (2 ^ (8 * k) - n)
  else
    toString n

/-- Decoder for the integer builtins: read exactly `k` bytes (panic when
fewer remain), assemble in the indicated endianness, render in decimal. -/
def decodeInt (signed : Bool) (k : Nat) (bigEndian : Bool) (data : List Nat) :
    Option String :=
  (takeExact k data).map (fun bs =>
    intRender signed k (if bigEndian then natFromBE bs else natFromLE bs))

/-- Decoder for the float builtins.  The Rust code renders the IEEE-754
value via `f32::to_string` / `f64::to_string` (shortest round-trip
decimal); that formatting is not reproduced here, so the value string is
modelled opaquely from the raw bits.  No claim below depends on the
value string of a float element: the correctness pass rejects float
fields as array lengths, and the tree-shape claims ignore values. -/
def decodeFloat (k : Nat) (bigEndian : Bool) (data : List Nat) :
    Option String :=
  (takeExact k data).map (fun bs =>
    "float:" ++ toString (if bigEndian then natFromBE bs else natFromLE bs))

/-- Decoder for `ascii`: `(u8::from_le_bytes([data[0]]) as char).to_string()`,
the one-character string whose code point is the byte value. -/
def decodeAscii (data : List Nat) : Option String :=
  match data with
  | [] => none
  | b :: _ => some (String.singleton (Char.ofNat (b % 256)))

/-- `get_builtin_types`: the closed registry of builtin type names. -/
def get_builtin_types (name : String) : Option CartaBuiltinType :=
  match name with
  | "int8" => some ⟨1, decodeInt true 1 false, .Integer⟩
  | "int16_be" => some ⟨2, decodeInt true 2 true, .Integer⟩
  | "int16_le" => some ⟨2, decodeInt true 2 false, .Integer⟩
  | "int32_be" => some ⟨4, decodeInt true 4 true, .Integer⟩
  | "int32_le" => some ⟨4, decodeInt true 4 false, .Integer⟩
  | "int64_be" => some ⟨8, decodeInt true 8 true, .Integer⟩
  | "int64_le" => some ⟨8, decodeInt true 8 false, .Integer⟩
  | "uint8" => some ⟨1, decodeInt false 1 false, .Integer⟩
  | "uint16_be" => some ⟨2, decodeInt false 2 true, .Integer⟩
  | "uint16_le" => some ⟨2, decodeInt false 2 false, .Integer⟩
  | "uint32_be" => some ⟨4, decodeInt false 4 true, .Integer⟩
  | "uint32_le" => some ⟨4, decodeInt false 4 false, .Integer⟩
  | "uint64_be" => some ⟨8, decodeInt false 8 true, .Integer⟩
  | "uint64_le" => some ⟨8, decodeInt false 8 false, .Integer⟩
  | "f32_be" => some ⟨4, decodeFloat 4 true, .Float⟩
  | "f32_le" => some ⟨4, decodeFloat 4 false, .Float⟩
  | "f64_be" => some ⟨8, decodeFloat 8 true, .Float⟩
  | "f64_le" => some ⟨8, decodeFloat 8 false, .Float⟩
  | "ascii" => some ⟨1, decodeAscii, .Text⟩
  | _ => none

def is_builtin_type (name : String) : Bool :=
  (get_builtin_types name).isSome

/-- `get_value`: `none` when the name is not a builtin; otherwise the
size together with the decoder result (`none` inside for a decoder
panic on truncated data). -/
def get_value (data : List Nat) (name : String) : Option (Nat × Option String) :=
  (get_builtin_types name).map (fun defn => (defn.size, defn.value data))

def is_type_class (name : String) (c : BuiltinTypeClass) : Bool :=
  match get_builtin_types name with
  | some defn => defn.tclass == c
  | none => false

/-! ## Tokeniser (src/src/tokeniser.rs)

The source drives a boxed `TokeniserState` over `data.chars()`,
appending emitted tokens to a vector and bumping the line counter after
processing each newline character.  The state objects, their
`new_char`/`eof` methods and the free function `new_state` are embedded
one to one; the input text is the character sequence `List Char`. -/

inductive TokState where
  | empty
  | word (value : String) (line_no : Nat)
  | integer (value : Nat) (num_digits : Nat) (line_no : Nat)
  | comment
  | lineComment
  | blockComment
  | endBlockComment
  deriving DecidableEq, Repr

/-- `new_state`: dispatch a character with no token in progress.
Returns the tokens pushed and the follow-on state, if any.  The source
first tests `is_digit(10)` and then lets `IntegerState::new` call
`to_digit(10).unwrap()`; the embedding matches on `rustToDigit10`
directly, which is the same discrimination. -/
def new_state (c : Char) (line_no : Nat) :
    Except CartaError (List Token × Option TokState) :=
  if c = '\n' then
    .ok ([⟨.NewLine, line_no, .StringVal (String.singleton c)⟩], none)
  else if rustIsWhitespace c then
    .ok ([], none)
  else if rustIsAlphabetic c || c = '_' then
    .ok ([], some (.word (String.singleton c) line_no))
  else
    match rustToDigit10 c with
    | some d =>
      -- IntegerState::new: a first digit of 0 is the LeadingZero error
      if d = 0 then .error ⟨0, .LeadingZero⟩
      else .ok ([], some (.integer d 1 line_no))
    | none =>
      if c = ':' then .ok ([⟨.Colon, line_no, .StringVal (String.singleton c)⟩], none)
      else if c = '{' then .ok ([⟨.OpenBrace, line_no, .StringVal (String.singleton c)⟩], none)
      else if c = '}' then .ok ([⟨.CloseBrace, line_no, .StringVal (String.singleton c)⟩], none)
      else if c = ',' then .ok ([⟨.Comma, line_no, .StringVal (String.singleton c)⟩], none)
      else if c = '[' then .ok ([⟨.OpenBracket, line_no, .StringVal (String.singleton c)⟩], none)
      else if c = ']' then .ok ([⟨.CloseBracket, line_no, .StringVal (String.singleton c)⟩], none)
      else if c = ';' then .ok ([⟨.Semicolon, line_no, .StringVal (String.singleton c)⟩], none)
      else if c = '/' then .ok ([], some .comment)
      else .error ⟨0, .UnknownSymbol c⟩

/-- One `new_char` step of the tokeniser state machine.  Returns the
next state and the tokens emitted by this step, in emission order. -/
def tokStep (st : TokState) (c : Char) (line_no : Nat) :
    Except CartaError (TokState × List Token) :=
  match st with
  | .empty =>
    (new_state c line_no).map (fun p => (p.2.getD .empty, p.1))
  | .word v l =>
    if rustIsAlphabetic c || rustIsNumeric c || c = '_' then
      .ok (.word (v.push c) l, [])
    else
      -- emit the buffered Word, then re-dispatch c through new_state
      (new_state c line_no).map (fun p =>
        (p.2.getD .empty, ⟨.Word, l, .StringVal v⟩ :: p.1))
  | .integer v n l =>
    match rustToDigit10 c with
    | some d =>
      if n > 8 then .error ⟨0, .IntegerTooLarge⟩
      else .ok (.integer (v * 10 + d) (n + 1) l, [])
    | none =>
      (new_state c line_no).map (fun p =>
        (p.2.getD .empty, ⟨.Integer, l, .IntVal v⟩ :: p.1))
  | .comment =>
    if c = '/' then .ok (.lineComment, [])
    else if c = '*' then .ok (.blockComment, [])
    else .error ⟨0, .UnexpectedSymbol "* or /" c⟩
  | .lineComment =>
    if c = '\n' then .ok (.empty, []) else .ok (.lineComment, [])
  | .blockComment =>
    if c = '*' then .ok (.endBlockComment, []) else .ok (.blockComment, [])
  | .endBlockComment =>
    if c = '/' then .ok (.empty, []) else .ok (.blockComment, [])

/-- End-of-input handling for each state (`TokeniserState::eof`). -/
def tokEof (st : TokState) : Except CartaError (Option Token) :=
  match st with
  | .empty => .ok none
  | .word v l => .ok (some ⟨.Word, l, .StringVal v⟩)
  | .integer v _ l => .ok (some ⟨.Integer, l, .IntVal v⟩)
  | .comment => .ok none
  | .lineComment => .ok none
  | .blockComment => .error ⟨0, .UnclosedBlockComment⟩
  | .endBlockComment => .error ⟨0, .UnclosedBlockComment⟩

/-- The main loop of `Tokeniser::new`: process each character, then
increment the line counter after a newline. -/
def tokLoop (st : TokState) (line_no : Nat) (text : List Char)
    (tokens : List Token) : Except CartaError (List Token) :=
  match text with
  | [] =>
    match tokEof st with
    | .error e => .error e
    | .ok none => .ok tokens
    | .ok (some t) => .ok (tokens ++ [t])
  | c :: rest =>
    match tokStep st c line_no with
    | .error e => .error e
    | .ok (st2, emitted) =>
      tokLoop st2 (if c = '\n' then line_no + 1 else line_no) rest
        (tokens ++ emitted)

/-- `Tokeniser::new`: tokenise a source text. -/
def tokenise (text : List Char) : Except CartaError (List Token) :=
  tokLoop .empty 1 text []

/-! Word-shape predicates.  `matchesAsciiWord` follows the claim's words
(the regex `[A-Za-z_][A-Za-z0-9_]*`); `matchesUniWord` is the shape the
tokeniser actually enforces, with Rust's Unicode character classes. -/

def isAsciiDigit (c : Char) : Bool :=
  48 ≤ c.toNat && c.toNat ≤ 57

def digitsVal (cs : List Char) : Nat :=
  cs.foldl (fun acc c => acc * 10 + (c.toNat - 48)) 0

def isAsciiWordStart (c : Char) : Bool :=
  (65 ≤ c.toNat && c.toNat ≤ 90) || (97 ≤ c.toNat && c.toNat ≤ 122) ||
  c = '_'

def isAsciiWordChar (c : Char) : Bool :=
  isAsciiWordStart c || isAsciiDigit c

/-- The claim's regex `[A-Za-z_][A-Za-z0-9_]*`. -/
def matchesAsciiWord (s : String) : Bool :=
  match s.data with
  | [] => false
  | c :: rest => isAsciiWordStart c && rest.all isAsciiWordChar

def isUniWordStart (c : Char) : Bool :=
  rustIsAlphabetic c || c = '_'

def isUniWordChar (c : Char) : Bool :=
  rustIsAlphabetic c || rustIsNumeric c || c = '_'

/-- The word shape the tokeniser enforces: an alphabetic (Unicode) or
underscore start, extended by alphabetic, numeric (Unicode) or
underscore characters. -/
def matchesUniWord (s : String) : Bool :=
  match s.data with
  | [] => false
  | c :: rest => isUniWordStart c && rest.all isUniWordChar

/-- Tokeniser-state invariant: an in-progress word buffer always has
the enforced word shape. -/
def stateWordOk : TokState → Prop
  | .word v _ => matchesUniWord v = true
  | _ => True

/-- Tokeniser-state invariant: the line stored with an in-progress
word or integer is at least `n`. -/
def stateLinesAtLeast (n : Nat) : TokState → Prop
  | .word _ l => n ≤ l
  | .integer _ _ l => n ≤ l
  | _ => True

/-! ## Schema data model (src/src/parser.rs)

The `StructDefn` and `Element` of src/src/parser.rs carry no `line_no`
field, while src/src/type_check.rs reads `kind.line_no` and
`member.line_no` from them (the snapshot mixes revisions).  The fields
are therefore modelled from the spec: each error is attributed to the
most specific source line available, so a struct's `line_no` is the
line of its name token and an element's `line_no` is the line of its
name token. -/

inductive ArrayLen where
  | Identifier (id : String)
  | Static (n : Nat)
  deriving DecidableEq, Repr

structure ArrayDefn where
  kind : String
  length : ArrayLen
  deriving DecidableEq, Repr

inductive ElementTypeRef where
  | TypeName (typename : String)
  | ArrayElem (defn : ArrayDefn)
  deriving DecidableEq, Repr

structure Element where
  name : String
  /-- Modelled from the spec: line of the element's name token (absent
  from the parser revision in src, required by type_check.rs). -/
  line_no : Nat
  kind : ElementTypeRef
  deriving DecidableEq, Repr

structure StructDefn where
  name : String
  /-- Modelled from the spec: line of the struct's name token (absent
  from the parser revision in src, required by type_check.rs). -/
  line_no : Nat
  elements : List Element
  deriving DecidableEq, Repr

structure Schema where
  structs : List StructDefn
  deriving DecidableEq, Repr

/-! ## Parser (src/src/parser.rs)

The parser folds a boxed `CompilerState` over the token stream.  The
three state objects (`EmptyState`, `StructState`, `ArrayState`) are
embedded as one inductive; `ArrayState` owns its parent `StructState`.
`unwrap` panics (on fields the state machine has always set, and
`Token::get_int` on a non-integer value) are modelled by an outer
`Option`: `none` is a panic. -/

inductive StructSubState where
  | Begin | Name | OpenBrace | ChildName | ChildTypeOf | ChildKind
  deriving DecidableEq, Repr

structure StructStateData where
  state : StructSubState
  /-- The struct name together with the (modelled) line of its token. -/
  name : Option (String × Nat)
  complete_children : List Element
  /-- The pending child name together with the (modelled) line of its
  token. -/
  new_child_name : Option (String × Nat)
  deriving DecidableEq, Repr

/-- `StructState::new`. -/
def StructStateData.init : StructStateData :=
  ⟨.Begin, none, [], none⟩

/-- `StructState::add_complete_struct`: `none` is the `name.unwrap()`
panic. -/
def StructStateData.add_complete_struct (s : StructStateData) :
    Option StructDefn :=
  s.name.map (fun p => ⟨p.1, p.2, s.complete_children⟩)

/-- `StructState::append_child`: `none` is the `new_child_name.take().unwrap()`
panic. -/
def StructStateData.append_child (s : StructStateData)
    (kind : ElementTypeRef) : Option StructStateData :=
  s.new_child_name.map (fun p =>
    { s with
      complete_children := s.complete_children ++ [⟨p.1, p.2, kind⟩],
      new_child_name := none })

inductive ArraySubState where
  | Begin | Kind | Semicolon | Length
  deriving DecidableEq, Repr

structure ArrayStateData where
  parent : StructStateData
  state : ArraySubState
  kind : Option String
  length : Option ArrayLen
  deriving DecidableEq, Repr

inductive PState where
  | empty
  | structSt (s : StructStateData)
  | arraySt (a : ArrayStateData)
  deriving DecidableEq, Repr

/-- The parser's own `new_state` function: file-scope dispatch of a
token. `none` (inner) means no state change. -/
def parser_new_state (t : Token) : Except CartaError (Option PState) :=
  if t.kind = .Word then
    if t.get_string = "struct" then
      .ok (some (.structSt StructStateData.init))
    else
      .error ⟨t.line_no, .ParseError "<keyword>" t.get_string⟩
  else if t.kind = .NewLine then
    .ok none
  else
    .error ⟨t.line_no, .ParseError "<keyword>" t.get_string⟩

/-- `StructState::new_token`.  Outer `Option`: panic. -/
def structStep (s : StructStateData) (t : Token)
    (structs : List StructDefn) :
    Option (Except CartaError (PState × List StructDefn)) :=
  if t.kind = .NewLine then some (.ok (.structSt s, structs))
  else
    match s.state with
    | .Begin =>
      if t.kind ≠ .Word then
        some (.error ⟨t.line_no, .ParseError "<name>" t.get_string⟩)
      else
        some (.ok (.structSt { s with
          name := some (t.get_string, t.line_no), state := .Name }, structs))
    | .Name =>
      if t.kind ≠ .OpenBrace then
        some (.error ⟨t.line_no, .ParseError "\x7b" t.get_string⟩)
      else
        some (.ok (.structSt { s with state := .OpenBrace }, structs))
    | .OpenBrace =>
      match t.kind with
      | .CloseBrace =>
        (s.add_complete_struct).map (fun defn =>
          .ok (.empty, structs ++ [defn]))
      | .Word =>
        some (.ok (.structSt { s with
          new_child_name := some (t.get_string, t.line_no),
          state := .ChildName }, structs))
      | _ => some (.error ⟨t.line_no, .ParseError "\x7d" t.get_string⟩)
    | .ChildName =>
      if t.kind ≠ .Colon then
        some (.error ⟨t.line_no, .ParseError ":" t.get_string⟩)
      else
        some (.ok (.structSt { s with state := .ChildTypeOf }, structs))
    | .ChildTypeOf =>
      match t.kind with
      | .Word =>
        (s.append_child (.TypeName t.get_string)).map (fun s2 =>
          .ok (.structSt { s2 with state := .ChildKind }, structs))
      | .OpenBracket =>
        some (.ok (.arraySt ⟨{ s with state := .ChildKind },
          .Begin, none, none⟩, structs))
      | _ => some (.error ⟨t.line_no, .ParseError "<typename>" t.get_string⟩)
    | .ChildKind =>
      match t.kind with
      | .Comma =>
        some (.ok (.structSt { s with state := .OpenBrace }, structs))
      | .CloseBrace =>
        (s.add_complete_struct).map (fun defn =>
          .ok (.empty, structs ++ [defn]))
      | _ => some (.error ⟨t.line_no, .ParseError "," t.get_string⟩)

/-- `ArrayState::new_token`.  Outer `Option`: panic. -/
def arrayStep (a : ArrayStateData) (t : Token)
    (structs : List StructDefn) :
    Option (Except CartaError (PState × List StructDefn)) :=
  if t.kind = .NewLine then some (.ok (.arraySt a, structs))
  else
    match a.state with
    | .Begin =>
      if t.kind ≠ .Word then
        some (.error ⟨t.line_no, .ParseError "<typename>" t.get_string⟩)
      else
        some (.ok (.arraySt { a with
          kind := some t.get_string, state := .Kind }, structs))
    | .Kind =>
      if t.kind ≠ .Semicolon then
        some (.error ⟨t.line_no, .ParseError ";" t.get_string⟩)
      else
        some (.ok (.arraySt { a with state := .Semicolon }, structs))
    | .Semicolon =>
      match t.kind with
      | .Word =>
        some (.ok (.arraySt { a with
          length := some (.Identifier t.get_string),
          state := .Length }, structs))
      | .Integer =>
        (t.get_int).map (fun i =>
          .ok (.arraySt { a with
            length := some (.Static i), state := .Length }, structs))
      | _ => some (.error ⟨t.line_no, .ParseError "<array_length>" t.get_string⟩)
    | .Length =>
      if t.kind ≠ .CloseBracket then
        some (.error ⟨t.line_no, .ParseError "]" t.get_string⟩)
      else
        match a.kind, a.length with
        | some k, some len =>
          (a.parent.append_child (.ArrayElem ⟨k, len⟩)).map (fun p2 =>
            .ok (.structSt p2, structs))
        | _, _ => none

/-- One `CompilerState::new_token` dispatch. -/
def parseStep (st : PState) (t : Token) (structs : List StructDefn) :
    Option (Except CartaError (PState × List StructDefn)) :=
  match st with
  | .empty =>
    match parser_new_state t with
    | .error e => some (.error e)
    | .ok none => some (.ok (.empty, structs))
    | .ok (some st2) => some (.ok (st2, structs))
  | .structSt s => structStep s t structs
  | .arraySt a => arrayStep a t structs

/-- The parser's token fold (`compile_schema` in src/src/parser.rs).
Outer `Option`: panic. -/
def parseLoop (st : PState) (tokens : List Token)
    (structs : List StructDefn) : Option (Except CartaError Schema) :=
  match tokens with
  | [] =>
    -- CompilerState::eof: only EmptyState accepts end of input
    match st with
    | .empty => some (.ok ⟨structs⟩)
    | _ => some (.error ⟨0, .IncompleteInput⟩)
  | t :: rest =>
    match parseStep st t structs with
    | none => none
    | some (.error e) => some (.error e)
    | some (.ok (st2, structs2)) => parseLoop st2 rest structs2

/-- `compile_schema`: parse a token stream into a `Schema`. -/
def compile_schema (tokens : List Token) : Option (Except CartaError Schema) :=
  parseLoop .empty tokens []

/-! ## Type checker (src/src/type_check.rs)

`HashMap<String, StructDefn>` is embedded as an insertion-ordered
`List StructDefn` (each entry's key equals its `name`), `HashSet<&str>`
as a duplicate-free `List String`.  Rust iterates hash containers in an
unspecified order; the embedding iterates in insertion order.  All
facts proved below about these passes are insensitive to that order. -/

structure TSchema where
  types : List StructDefn
  deriving DecidableEq, Repr

/-- Map membership (`HashMap::contains_key`). -/
def mapContains (m : List StructDefn) (k : String) : Bool :=
  m.any (fun s => s.name == k)

/-- Map lookup (`HashMap::get`). -/
def mapGet (m : List StructDefn) (k : String) : Option StructDefn :=
  m.find? (fun s => s.name == k)

/-- `HashSet::insert` on a duplicate-free list. -/
def setInsert (l : List String) (x : String) : List String :=
  if l.contains x then l else l ++ [x]

/-- The element type name extracted in type_check.rs: for a plain
element its typename, for an array its element kind (not the length
reference). -/
def elementTypeName : ElementTypeRef → String
  | .TypeName typename => typename
  | .ArrayElem array_defn => array_defn.kind

/-- `build_structs_map`: insert each struct, failing on a duplicate name
with the later definition's line. -/
def build_structs_map_go (types_map : List StructDefn) :
    List StructDefn → Except CartaError (List StructDefn)
  | [] => .ok types_map
  | kind :: rest =>
    if mapContains types_map kind.name then
      .error ⟨kind.line_no, .DuplicateType kind.name⟩
    else
      build_structs_map_go (types_map ++ [kind]) rest

def build_structs_map (types : List StructDefn) :
    Except CartaError (List StructDefn) :=
  build_structs_map_go [] types

/-- `check_all_types_defined`, inner loop over one struct's elements. -/
def check_members_defined (types_map : List StructDefn) :
    List Element → Except CartaError Unit
  | [] => .ok ()
  | member :: rest =>
    let typename := elementTypeName member.kind
    if !is_builtin_type typename && (mapGet types_map typename).isNone then
      .error ⟨member.line_no, .UnknownType typename⟩
    else
      check_members_defined types_map rest

/-- `check_all_types_defined`: every referenced element type is a
builtin or a key of the map. -/
def check_all_types_defined_go (types_map : List StructDefn) :
    List StructDefn → Except CartaError Unit
  | [] => .ok ()
  | kind :: rest =>
    match check_members_defined types_map kind.elements with
    | .error e => .error e
    | .ok _ => check_all_types_defined_go types_map rest

def check_all_types_defined (types_map : List StructDefn) :
    Except CartaError Unit :=
  check_all_types_defined_go types_map types_map

/-- `dependant_types` entry update: push `parent` onto the list for
`key`, creating the entry when missing. -/
def depsAdd (deps : List (String × List String)) (key parent : String) :
    List (String × List String) :=
  if deps.any (fun p => p.1 == key) then
    deps.map (fun p => if p.1 == key then (p.1, p.2 ++ [parent]) else p)
  else
    deps ++ [(key, [parent])]

/-- `dependant_types.get`: the dependants recorded for `key` (an absent
entry behaves as the empty list: the source skips the loop). -/
def depsGet (deps : List (String × List String)) (key : String) :
    List String :=
  ((deps.find? (fun p => p.1 == key)).map Prod.snd).getD []

/-- The first scan of `check_types_no_loops` over one struct's elements:
records reverse dependencies for every non-builtin, not-yet-resolved
reference and reports whether all references resolved directly. -/
def scanMembers (resolved : List String) (parent_name : String) :
    List Element → Bool → List (String × List String) →
    Bool × List (String × List String)
  | [], all_builtin, deps => (all_builtin, deps)
  | member :: rest, all_builtin, deps =>
    let typename := elementTypeName member.kind
    if !is_builtin_type typename && !resolved.contains typename then
      scanMembers resolved parent_name rest false (depsAdd deps typename parent_name)
    else
      scanMembers resolved parent_name rest all_builtin deps

/-- The first phase of `check_types_no_loops`: scan every struct (in map
order), building `dependant_types` and seeding `types_resolved` and the
work stack with the structs whose references all resolve directly. -/
def scanStructs :
    List StructDefn → List String → List (String × List String) →
    List String →
    List String × List (String × List String) × List String
  | [], resolved, deps, stack => (resolved, deps, stack)
  | kind :: rest, resolved, deps, stack =>
    match scanMembers resolved kind.name kind.elements true deps with
    | (all_builtin, deps2) =>
      if all_builtin then
        scanStructs rest (setInsert resolved kind.name) deps2
          (kind.name :: stack)
      else
        scanStructs rest resolved deps2 stack

/-- The re-scan of a parent's elements in the drain loop: all references
are builtin or resolved. -/
def allRefsResolved (resolved : List String) (p : StructDefn) : Bool :=
  p.elements.all (fun member =>
    is_builtin_type (elementTypeName member.kind) ||
    resolved.contains (elementTypeName member.kind))

/-- The inner loop of the drain phase over `dependant_types[name]`.
`none` is the source's `panic!("Unresolved type")` on a parent name
missing from the map (unreachable after `check_all_types_defined`, and
in fact unreachable outright: recorded parents are map keys).

The source pushes a fully-resolved parent unconditionally;
`HashSet::insert` is a no-op when the parent is already resolved, and
the duplicate stack entry only re-examines the dependants of an
already-resolved struct, which cannot change the resolved set.  The
embedding prunes exactly those no-op pushes (the
`!resolved.contains p.name` guard) so that the drain has a linear
termination measure; the resolved-set saturation is unchanged. -/
def drainParents (types_map : List StructDefn) :
    List String → List String → List String →
    Option (List String × List String)
  | [], resolved, stack => some (resolved, stack)
  | parent :: rest, resolved, stack =>
    match mapGet types_map parent with
    | none => none
    | some p =>
      if allRefsResolved resolved p && !resolved.contains p.name then
        drainParents types_map rest (resolved ++ [p.name]) (p.name :: stack)
      else
        drainParents types_map rest resolved stack

/-- The drain loop of `check_types_no_loops` (`while let Some(kind_name)
= types_stack.pop()`), driven by fuel.  `none` is either fuel
exhaustion (shown below to be unreachable for the fuel used) or the
parent-lookup panic. -/
def drain (types_map : List StructDefn)
    (deps : List (String × List String)) :
    Nat → List String → List String → Option (List String)
  | 0, _, _ => none
  | _ + 1, resolved, [] => some resolved
  | fuel + 1, resolved, kind_name :: rest =>
    match drainParents types_map (depsGet deps kind_name) resolved rest with
    | none => none
    | some (resolved2, stack2) => drain types_map deps fuel resolved2 stack2

/-- `usize::max_value()`. -/
def usizeMax : Nat := 2 ^ 64 - 1

/-- `check_types_no_loops`: worklist saturation, then report every
struct left unresolved as recursive, at the minimum of their lines. -/
def check_types_no_loops (types_map : List StructDefn) :
    Option (Except CartaError Unit) :=
  match scanStructs types_map [] [] [] with
  | (resolved, deps, stack) =>
    match drain types_map deps (stack.length + types_map.length + 1)
        resolved stack with
    | none => none
    | some resolvedF =>
      let unresolved := types_map.filter (fun kind => !resolvedF.contains kind.name)
      let recursive_types := unresolved.map (fun kind => kind.name)
      let line_no := unresolved.foldl
        (fun acc kind => if kind.line_no < acc then kind.line_no else acc)
        usizeMax
      if recursive_types.isEmpty then some (.ok ())
      else some (.error ⟨line_no, .RecursiveTypes recursive_types⟩)

/-- `check_types` / `type_check_schema`. -/
def type_check_schema (schema : Schema) : Option (Except CartaError TSchema) :=
  match build_structs_map schema.structs with
  | .error e => some (.error e)
  | .ok types_map =>
    match check_all_types_defined types_map with
    | .error e => some (.error e)
    | .ok _ =>
      match check_types_no_loops types_map with
      | none => none
      | some (.error e) => some (.error e)
      | some (.ok _) => some (.ok ⟨types_map⟩)

/-! ## Correctness checks (src/src/correctness.rs) -/

/-- `check_root_element`: the map must contain the key `root`. -/
def check_root_element (schema : TSchema) : Except CartaError Unit :=
  if !mapContains schema.types "root" then
    .error ⟨0, .MissingRootElement⟩
  else
    .ok ()

/-- The scan in `check_array_elem` over the elements at strictly earlier
positions: the first one named `id` decides the outcome. -/
def scanForLen (id : String) : List Element → Except CartaError Unit
  | [] => .error ⟨0, .BadArrayLen id⟩
  | e :: rest =>
    if e.name == id then
      match e.kind with
      | .TypeName typename =>
        if is_type_class typename .Integer then .ok ()
        else .error ⟨0, .BadArrayLenType id⟩
      | _ => .error ⟨0, .BadArrayLenType id⟩
    else
      scanForLen id rest

/-- `check_array_elem`: a static length needs no check; an identifier
length is checked against the elements before position `arr_idx`. -/
def check_array_elem (struct_defn : StructDefn) (arr : ArrayDefn)
    (arr_idx : Nat) : Except CartaError Unit :=
  match arr.length with
  | .Static _ => .ok ()
  | .Identifier id => scanForLen id (struct_defn.elements.take arr_idx)

/-- The indexed element loop of `check_array_lengths` for one struct. -/
def check_struct_arrays (struct_defn : StructDefn) (i : Nat) :
    List Element → Except CartaError Unit
  | [] => .ok ()
  | e :: rest =>
    match e.kind with
    | .ArrayElem arr =>
      match check_array_elem struct_defn arr i with
      | .error err => .error err
      | .ok _ => check_struct_arrays struct_defn (i + 1) rest
    | _ => check_struct_arrays struct_defn (i + 1) rest

/-- `check_array_lengths`: every struct's array elements are checked. -/
def check_array_lengths_go : List StructDefn → Except CartaError Unit
  | [] => .ok ()
  | struct_defn :: rest =>
    match check_struct_arrays struct_defn 0 struct_defn.elements with
    | .error err => .error err
    | .ok _ => check_array_lengths_go rest

def check_array_lengths (schema : TSchema) : Except CartaError Unit :=
  check_array_lengths_go schema.types

/-- `check_schema`: root presence, then array lengths. -/
def check_schema (schema : TSchema) : Except CartaError Unit :=
  match check_root_element schema with
  | .error e => .error e
  | .ok _ => check_array_lengths schema

/-! ## The pipeline (src/src/lib.rs) -/

/-- Tokenise then parse: the front half of `compile_schema_file`.
Outer `Option`: panic. -/
def parse_text (text : List Char) : Option (Except CartaError Schema) :=
  match tokenise text with
  | .error e => some (.error e)
  | .ok tokens => compile_schema tokens

/-- `compile_schema_file`: tokenise, parse, type-check, correctness.
Outer `Option`: panic (or drain fuel exhaustion, proven unreachable). -/
def compile_schema_file (text : List Char) :
    Option (Except CartaError TSchema) :=
  match parse_text text with
  | none => none
  | some (.error e) => some (.error e)
  | some (.ok schema) =>
    match type_check_schema schema with
    | none => none
    | some (.error e) => some (.error e)
    | some (.ok tschema) =>
      match check_schema tschema with
      | .error e => some (.error e)
      | .ok _ => some (.ok tschema)

/-! ## Applier (src/src/apply.rs)

`apply_schema` in src/src/lib.rs returns a bare `Nugget` (no `Result`)
and the applier panics on out-of-bounds reads (`.unwrap()` on slice
accesses and on the array-length parse).  The embedding returns `RRes
Nugget`: `.ok` for a normal return, `.panic` for a panic, `.fuelOut`
when the explicit recursion fuel runs out (the Rust recursion
terminates on type-checked schemas because the struct graph is
acyclic; fuel makes the embedding total). -/

inductive RRes (α : Type) where
  | ok (a : α)
  | panic
  | fuelOut
  deriving DecidableEq, Repr

inductive Nugget where
  | mk (start : Nat) (len : Nat) (name : String) (value : Option String)
      (children : List Nugget)

def Nugget.start : Nugget → Nat
  | .mk s _ _ _ _ => s

def Nugget.len : Nugget → Nat
  | .mk _ l _ _ _ => l

def Nugget.name : Nugget → String
  | .mk _ _ n _ _ => n

def Nugget.value : Nugget → Option String
  | .mk _ _ _ v _ => v

def Nugget.children : Nugget → List Nugget
  | .mk _ _ _ _ c => c

/-- Sum of the `len` fields of a list of nuggets. -/
def sumLens (cs : List Nugget) : Nat :=
  (cs.map Nugget.len).sum

/-- The children of a node laid out back to back from `base`: each
child starts where the previous one ended (child `i` starts at `base`
plus the lengths of children `0..i-1`). -/
def chainFrom : Nat → List Nugget → Prop
  | _, [] => True
  | base, c :: cs => c.start = base ∧ chainFrom (base + c.len) cs

/-- The tree-shape invariant of claim C2: every non-leaf node's length
is the sum of its children's lengths and its children are laid out back
to back from its start. -/
inductive OkTree : Nugget → Prop where
  | mk : ∀ (start len : Nat) (name : String) (value : Option String)
      (children : List Nugget),
      (children ≠ [] → len = sumLens children ∧ chainFrom start children) →
      (∀ c ∈ children, OkTree c) →
      OkTree (.mk start len name value children)

/-- A well-behaved recursive call into `build_nugget`: on success the
returned nugget carries the requested name and start, has no value, and
satisfies the tree invariant.  `build_nugget` itself is shown to
satisfy this below. -/
def RecOk (rec : StructDefn → Nat → String → RRes Nugget) : Prop :=
  ∀ d st nm n, rec d st nm = .ok n →
    n.name = nm ∧ n.start = st ∧ n.value = none ∧ OkTree n

/-- Model of Rust `str::parse::<usize>`: an optional leading `+`, then
one or more ASCII digits, failing on anything else and on overflow past
`usize::MAX`. -/
def parseUsize (s : String) : Option Nat :=
  let cs := match s.data with
    | '+' :: rest => rest
    | l => l
  if cs.isEmpty then none
  else if cs.all isAsciiDigit then
    let v := digitsVal cs
    if v ≤ usizeMax then some v else none
  else none

/-- `get_elem_size_value`: linear search of the sibling nuggets for the
first one named `name`, parsing its value as `usize`.  Results:
`none` when no sibling matches (the caller's `.unwrap()` then panics);
`some none` when the first match panics inside (a `None` value or a
failed parse); `some (some n)` on success. -/
def get_elem_size_value (name : String) : List Nugget → Option (Option Nat)
  | [] => none
  | nugget :: rest =>
    if nugget.name == name then
      match nugget.value with
      | none => some none
      | some v =>
        match parseUsize v with
        | none => some none
        | some n => some (some n)
    else
      get_elem_size_value name rest

/-- Modelled from the spec: src/src/apply.rs resolves the array count
via `array_defn.len_identifier`, a field of an earlier parser revision
(`ArrayDefn` in src/src/parser.rs carries `length : ArrayLen` instead),
so the dispatch on the length variant is missing from src.  Per spec
§4.5, `Static(n)` yields `n` and `Identifier(id)` resolves through the
sibling search `get_elem_size_value`. -/
def resolve_array_len (length : ArrayLen) (siblings : List Nugget) :
    Option (Option Nat) :=
  match length with
  | .Static n => some (some n)
  | .Identifier id => get_elem_size_value id siblings

/-- The type of the recursive call into `build_nugget` one fuel level
down, threaded through the helpers. -/
def RecFn : Type := StructDefn → Nat → String → RRes Nugget

/-- `build_single_val`: decode a builtin leaf or recurse into a child
struct.  Panics: `file_data.get(start..).unwrap()` when `start` exceeds
the data length; the decoder's slice indexing when fewer than `size`
bytes remain; `schema.types.get(typename).unwrap()` on an unknown
struct (unreachable after type checking). -/
def build_single_val (rec : RecFn) (schema : TSchema)
    (file_data : List Nat) (typename : String) (start : Nat)
    (name : String) : RRes (Nugget × Nat) :=
  if is_builtin_type typename then
    if start ≤ file_data.length then
      match get_value (file_data.drop start) typename with
      | some (size, some value) => .ok (.mk start size name (some value) [], size)
      | some (_, none) => .panic
      | none => .panic
    else .panic
  else
    match mapGet schema.types typename with
    | some child_kind =>
      match rec child_kind start name with
      | .ok child => .ok (child, child.len)
      | .panic => .panic
      | .fuelOut => .fuelOut
    | none => .panic

/-- The `for i in 0..len` loop of `build_array_val`: children are named
by their decimal index; `size` accumulates the bytes consumed. -/
def build_array_children (rec : RecFn) (schema : TSchema)
    (file_data : List Nat) (kind : String) (start : Nat) :
    Nat → Nat → Nat → List Nugget → RRes (List Nugget × Nat)
  | 0, _, size, children => .ok (children, size)
  | count + 1, i, size, children =>
    match build_single_val rec schema file_data kind (start + size)
        (toString i) with
    | .ok (child, len) =>
      build_array_children rec schema file_data kind start count (i + 1)
        (size + len) (children ++ [child])
    | .panic => .panic
    | .fuelOut => .fuelOut

/-- `build_array_val`: resolve the count from the siblings emitted so
far, then build the indexed children. -/
def build_array_val (rec : RecFn) (schema : TSchema)
    (file_data : List Nat) (array_defn : ArrayDefn) (start : Nat)
    (name : String) (siblings : List Nugget) : RRes (Nugget × Nat) :=
  match resolve_array_len array_defn.length siblings with
  | none => .panic
  | some none => .panic
  | some (some len) =>
    match build_array_children rec schema file_data array_defn.kind start
        len 0 0 [] with
    | .ok (children, size) => .ok (.mk start size name none children, size)
    | .panic => .panic
    | .fuelOut => .fuelOut

/-- The element loop of `build_nugget`: `len` is the running offset,
`children` the nuggets emitted so far (passed to array elements as the
sibling list). -/
def build_children (rec : RecFn) (schema : TSchema)
    (file_data : List Nat) (start : Nat) :
    List Element → Nat → List Nugget → RRes (List Nugget × Nat)
  | [], len, children => .ok (children, len)
  | element :: rest, len, children =>
    let res :=
      match element.kind with
      | .TypeName typename =>
        build_single_val rec schema file_data typename (start + len)
          element.name
      | .ArrayElem array_defn =>
        build_array_val rec schema file_data array_defn (start + len)
          element.name children
    match res with
    | .ok (nugget, size) =>
      build_children rec schema file_data start rest (len + size)
        (children ++ [nugget])
    | .panic => .panic
    | .fuelOut => .fuelOut

/-- `build_nugget`, with explicit fuel for the struct recursion. -/
def build_nugget :
    Nat → TSchema → List Nat → StructDefn → Nat → String → RRes Nugget
  | 0, _, _, _, _, _ => .fuelOut
  | fuel + 1, schema, file_data, struct_defn, start, name =>
    match build_children
        (fun defn st nm => build_nugget fuel schema file_data defn st nm)
        schema file_data start struct_defn.elements 0 [] with
    | .ok (children, len) => .ok (.mk start len name none children)
    | .panic => .panic
    | .fuelOut => .fuelOut

/-- `apply_schema` (src/src/lib.rs and apply.rs): look up `root` (the
`.unwrap()` panics when absent) and build from offset 0. -/
def apply_schema (fuel : Nat) (schema : TSchema) (file_data : List Nat) :
    RRes Nugget :=
  match mapGet schema.types "root" with
  | some root_struct => build_nugget fuel schema file_data root_struct 0 "root"
  | none => .panic

/-! ## Concrete schemas used by several claims -/

/-- The source text of spec scenario 6: `struct root {a: T1} struct T1
{b: T2} struct T2 {c: T1}`, all on line 1. -/
def cycleText : List Char :=
  "struct root \x7ba: T1\x7d struct T1 \x7bb: T2\x7d struct T2 \x7bc: T1\x7d".data

/-- Source text of a schema with a dynamic array whose length field is
the signed builtin `int8`. -/
def signedLenText : List Char :=
  "struct root \x7blen: int8, arr: [uint8; len]\x7d".data

/-- The compiled form of `signedLenText`. -/
def signedLenSchema : TSchema :=
  ⟨[⟨"root", 1,
     [⟨"len", 1, .TypeName "int8"⟩,
      ⟨"arr", 1, .ArrayElem ⟨"uint8", .Identifier "len"⟩⟩]⟩]⟩

/-- Source text of a single-field schema. -/
def int8RootText : List Char :=
  "struct root \x7ba: int8\x7d".data

/-- The compiled form of `int8RootText`. -/
def int8RootSchema : TSchema :=
  ⟨[⟨"root", 1, [⟨"a", 1, .TypeName "int8"⟩]⟩]⟩

/-! ## Groundedness of the struct-embedding graph (claim C1) -/

/-- A type name is grounded when some struct of that name has every
reference either a built-in or itself grounded: the least predicate
closed under the struct-embedding edges.  "Every struct is grounded"
is the claim's "the struct-embedding graph is a DAG whose leaves are
all built-in types": every chain of references bottoms out in
builtins, so there is no cycle and no undefined leaf. -/
inductive Grounded (structs : List StructDefn) : String → Prop where
  | mk (s : StructDefn) (hs : s ∈ structs)
      (h : ∀ m ∈ s.elements,
        is_builtin_type (elementTypeName m.kind) = false →
        Grounded structs (elementTypeName m.kind)) :
      Grounded structs s.name

/-- An element usable as an identifier array length: a `TypeName` of a
builtin in the `Integer` type class. -/
def integerLenElem (e : Element) : Prop :=
  ∃ tn, e.kind = .TypeName tn ∧ is_type_class tn .Integer = true

/-- The array-length condition `check_array_lengths` enforces: for an
array element at position `i` with an `Identifier id` length, the
first element named `id` among the elements at strictly earlier
positions exists and is an integer element (first match in scan
order, as in `scanForLen`). -/
def ArrayLenCond (s : StructDefn) : Prop :=
  ∀ i el arr id, s.elements.get? i = some el →
    el.kind = .ArrayElem arr → arr.length = .Identifier id →
    ∃ e, (s.elements.take i).find? (fun x => x.name == id) = some e ∧
      integerLenElem e

/-- The claim's array condition as worded: some strictly earlier
sibling named `id` is an integer element. -/
def claimArraysOk (structs : List StructDefn) : Prop :=
  ∀ s ∈ structs, ∀ i el arr id, s.elements.get? i = some el →
    el.kind = .ArrayElem arr → arr.length = .Identifier id →
    ∃ j ej, j < i ∧ s.elements.get? j = some ej ∧ ej.name = id ∧
      integerLenElem ej

/-- Claim C1's right-hand side as worded: the struct-embedding graph
is a DAG with built-in leaves (every struct grounded), the map has a
`root` key, and every identifier array length has a preceding integer
sibling. -/
def claimC1rhs (structs : List StructDefn) : Prop :=
  (∀ s ∈ structs, Grounded structs s.name) ∧
  mapContains structs "root" = true ∧
  claimArraysOk structs

/-- Source text declaring two identically-named structs. -/
def dupText : List Char :=
  "struct root \x7ba: int8\x7d struct root \x7ba: int8\x7d".data

/-- The struct `dupText` declares twice. -/
def dupStruct : StructDefn :=
  ⟨"root", 1, [⟨"a", 1, .TypeName "int8"⟩]⟩

/-- The parse of `dupText`: two structs both named `root`. -/
def dupStructs : List StructDefn :=
  [dupStruct, dupStruct]

/-- The invariant of the first phase of `check_types_no_loops`
(`scanStructs`), stated over the processed prefix `P` of the struct
map and the current resolved set `R`, dependants map `D` and work
stack `K`. -/
structure ScanInv (types_map P : List StructDefn) (R : List String)
    (D : List (String × List String)) (K : List String) : Prop where
  nodupR : R.Nodup
  memR : ∀ r ∈ R, r ∈ P.map StructDefn.name
  groundR : ∀ r ∈ R, Grounded types_map r
  stackIff : ∀ t, t ∈ K ↔ t ∈ R
  stackLen : K.length = R.length
  depFact : ∀ s ∈ P, ∀ m ∈ s.elements,
    is_builtin_type (elementTypeName m.kind) = true ∨
    elementTypeName m.kind ∈ R ∨
    s.name ∈ depsGet D (elementTypeName m.kind)
  pending : ∀ s ∈ P, s.name ∉ R → allRefsResolved R s = true →
    ∃ t ∈ K, s.name ∈ depsGet D t
  parentsFact : ∀ t pn, pn ∈ depsGet D t → ∃ s ∈ types_map, s.name = pn

/-! # Theorems -/

/-! ## Decoder bounds lemmas -/

theorem takeExact_eq_none {k : Nat} {data : List Nat}
    (h : data.length < k) : takeExact k data = none := by
  induction data generalizing k with
  | nil =>
    cases k with
    | zero => omega
    | succ j => simp [takeExact]
  | cons b rest ih =>
    cases k with
    | zero => omega
    | succ j =>
      simp only [takeExact]
      rw [ih (by simpa using h)]
      rfl

theorem decodeInt_short {s : Bool} {k : Nat} {be : Bool} {data : List Nat}
    (h : data.length < k) : decodeInt s k be data = none := by
  simp [decodeInt, takeExact_eq_none h]

theorem decodeFloat_short {k : Nat} {be : Bool} {data : List Nat}
    (h : data.length < k) : decodeFloat k be data = none := by
  simp [decodeFloat, takeExact_eq_none h]

theorem decodeAscii_short {data : List Nat} (h : data.length < 1) :
    decodeAscii data = none := by
  cases data with
  | nil => rfl
  | cons b rest => simp at h

/-- Every builtin decoder panics (returns `none`) when fewer bytes than
its size remain. -/
theorem builtin_value_short {name : String} {bt : CartaBuiltinType}
    (hbt : get_builtin_types name = some bt) {data : List Nat}
    (h : data.length < bt.size) : bt.value data = none := by
  unfold get_builtin_types at hbt
  split at hbt <;>
    first
    | exact Option.noConfusion hbt
    | (cases Option.some.inj hbt;
       first
       | exact decodeInt_short h
       | exact decodeFloat_short h
       | exact decodeAscii_short h)

/-! ## Claim C5 -/

/-- Claim C5 (counterexample): compiling
`struct root {a: T1} struct T1 {b: T2} struct T2 {c: T1}` does fail
with a `RecursiveTypes` error at line 1, but the list of names is
`["root", "T1", "T2"]`, not (as an unordered set) `{T1, T2}`: the
dependant struct `root` is reported alongside the actual cycle, because
the drain phase marks every struct left unresolved as recursive.  The
code's own test `type_loop_long_chain` expects this inclusion. -/
theorem C5_counterexample :
    compile_schema_file cycleText =
      some (.error ⟨1, .RecursiveTypes ["root", "T1", "T2"]⟩) ∧
    "root" ∈ ["root", "T1", "T2"] ∧
    "root" ∉ (["T1", "T2"] : List String) :=
  ⟨by decide, by decide, by decide⟩

/-- Claim C5 (amended): compiling
`struct root {a: T1} struct T1 {b: T2} struct T2 {c: T1}` fails with a
`RecursiveTypes` error whose names are exactly {root, T1, T2} — every
struct not resolved by the toposort, i.e. the cycle members and the
structs depending on them — and whose line number is 1, the minimum of
the line numbers of the listed structs (all three are declared on
line 1). -/
theorem C5_amended :
    compile_schema_file cycleText =
      some (.error ⟨1, .RecursiveTypes ["root", "T1", "T2"]⟩) :=
  by decide

/-! ## Claim C10 -/

/-- Claim C10: the schema `struct root {len: int8, arr: [uint8; len]}`
compiles, yet applying it to the 4-byte input `FF 00 00 00` panics: the
`len` sibling decodes to the string `"-1"`, whose parse as `usize`
fails, so the applier's `.unwrap()` panics even though ample bytes
remain.  `apply_schema` is therefore not total over inputs that pass
all compile-time checks. -/
theorem C10_negative_length_panics :
    compile_schema_file signedLenText = some (.ok signedLenSchema) ∧
    get_value [255] "int8" = some (1, some "-1") ∧
    parseUsize "-1" = none ∧
    apply_schema 20 signedLenSchema [255, 0, 0, 0] = .panic :=
  ⟨by decide, by decide, by decide, rfl⟩

/-! ## Claim C4 -/

/-- Claim C4 (counterexample): `apply_schema` does not return a
`Result`: in src/src/lib.rs its return type is the bare `Nugget`, and on
an input with fewer bytes than the next primitive decode requires it
panics (`.panic` in the embedding) instead of returning an error
value — here, the compiled schema `struct root {a: int8}` applied to
the empty input. -/
theorem C4_counterexample :
    compile_schema_file int8RootText = some (.ok int8RootSchema) ∧
    apply_schema 20 int8RootSchema [] = .panic :=
  ⟨by decide, rfl⟩

/-- Claim C4 (amended): `apply_schema` returns a bare `Nugget` (no
`Result`), and whenever fewer bytes remain than the next primitive
decode requires — the element's start plus the builtin's size exceeds
the input length — the applier panics rather than returning normally:
`build_single_val` yields `.panic` for every such decode. -/
theorem C4_amended (rec : RecFn) (schema : TSchema) (file_data : List Nat)
    (typename : String) (start : Nat) (name : String)
    (bt : CartaBuiltinType) (hbt : get_builtin_types typename = some bt)
    (hshort : file_data.length < start + bt.size) :
    build_single_val rec schema file_data typename start name = .panic := by
  have hb : is_builtin_type typename = true := by
    simp [is_builtin_type, hbt]
  unfold build_single_val
  rw [hb]
  simp only [if_true]
  by_cases hs : start ≤ file_data.length
  · have hdrop : (file_data.drop start).length < bt.size := by
      simp only [List.length_drop]
      omega
    rw [if_pos hs]
    simp [get_value, hbt, builtin_value_short hbt hdrop]
  · rw [if_neg hs]

/-- Witness for C4 (amended) at `int8`, start 0, empty input. -/
theorem C4_amended_witness :
    build_single_val (fun _ _ _ => .fuelOut) int8RootSchema [] "int8" 0 "a"
      = .panic :=
  C4_amended (fun _ _ _ => .fuelOut) int8RootSchema [] "int8" 0 "a"
    ⟨1, decodeInt true 1 false, .Integer⟩ rfl (by decide)

/-! ## Claim C9 -/

/-- Claim C9: for every byte `b` (0 through 255), the `ascii` builtin
decoder consumes exactly one byte and returns the one-character string
whose code point equals `b` — in particular bytes 0x80-0xFF decode to
the Latin-1 code point of that value — and it never fails when a byte
is present. -/
theorem C9_ascii_identity (b : Nat) (rest : List Nat) (hb : b < 256) :
    get_value (b :: rest) "ascii" =
      some (1, some (String.singleton (Char.ofNat b))) := by
  simp [get_value, get_builtin_types, decodeAscii, Nat.mod_eq_of_lt hb]

/-- Witness for C9 at byte 0xE9 (Latin-1 `é`). -/
theorem C9_ascii_identity_witness :
    get_value [233] "ascii" =
      some (1, some (String.singleton (Char.ofNat 233))) :=
  C9_ascii_identity 233 [] (by decide)

/-! ## Claim C8 -/

theorem digit_facts {c : Char} (h : isAsciiDigit c = true) :
    c ≠ '\n' ∧ rustIsWhitespace c = false ∧ rustIsAlphabetic c = false ∧
    c ≠ '_' ∧ rustToDigit10 c = some (c.toNat - 48) := by
  have hn : 48 ≤ c.toNat ∧ c.toNat ≤ 57 := by
    simpa [isAsciiDigit] using h
  refine ⟨?_, ?_, ?_, ?_, ?_⟩
  · intro e; subst e; exact absurd h (by decide)
  · simp only [rustIsWhitespace]
    simp only [Bool.or_eq_false_iff, Bool.and_eq_false_iff,
      decide_eq_false_iff_not, beq_eq_false_iff_ne, ne_eq]
    omega
  · simp only [rustIsAlphabetic]
    simp only [Bool.or_eq_false_iff, Bool.and_eq_false_iff,
      decide_eq_false_iff_not, beq_eq_false_iff_ne, ne_eq]
    omega
  · intro e; subst e; exact absurd h (by decide)
  · simp only [rustToDigit10]
    rw [if_pos]
    simp only [Bool.and_eq_true, decide_eq_true_eq]
    omega

/-- Running the tokeniser through a run of ASCII digits while inside
`IntegerState` accumulates the digits, as long as the digit budget of 9
is not exceeded. -/
theorem tokLoop_digit_run (ds : List Char)
    (hds : ∀ d ∈ ds, isAsciiDigit d = true) :
    ∀ v n l line rest acc, 1 ≤ n → n + ds.length ≤ 9 →
    tokLoop (.integer v n l) line (ds ++ rest) acc =
      tokLoop
        (.integer (ds.foldl (fun a c => a * 10 + (c.toNat - 48)) v)
          (n + ds.length) l)
        line rest acc := by
  induction ds with
  | nil => intro v n l line rest acc _ _; simp
  | cons d ds ih =>
    intro v n l line rest acc h1 h9
    obtain ⟨hnl, _, _, _, hdig⟩ := digit_facts (hds d (by simp))
    have hstep : tokStep (.integer v n l) d line =
        .ok (.integer (v * 10 + (d.toNat - 48)) (n + 1) l, []) := by
      simp only [tokStep, hdig]
      rw [if_neg (by simp at h9 ⊢; omega)]
    have harith : n + (d :: ds).length = n + 1 + ds.length := by
      simp only [List.length_cons]; omega
    simp only [List.cons_append, tokLoop, hstep, if_neg hnl,
      List.append_nil]
    rw [harith, List.foldl_cons]
    exact ih (fun x hx => hds x (List.mem_cons_of_mem d hx))
      (v * 10 + (d.toNat - 48)) (n + 1) l line rest acc (by omega)
      (by simp only [List.length_cons] at h9; omega)

/-- Claim C8: the 9-digit literal 999999999 tokenises to an `Integer`
token of value 999999999; every 10-digit literal (first digit nonzero,
per the Integer grammar) fails with `IntegerTooLarge`; every numeric
literal whose first digit is `0` fails with `LeadingZero`. -/
theorem C8_integer_bounds :
    tokenise "999999999".data = .ok [⟨.Integer, 1, .IntVal 999999999⟩] ∧
    (∀ (c : Char) (ds : List Char), isAsciiDigit c = true → c ≠ '0' →
      (∀ d ∈ ds, isAsciiDigit d = true) → ds.length = 9 →
      tokenise (c :: ds) = .error ⟨0, .IntegerTooLarge⟩) ∧
    (∀ rest : List Char, tokenise ('0' :: rest) = .error ⟨0, .LeadingZero⟩) := by
  refine ⟨by decide, ?_, ?_⟩
  · intro c ds hc hc0 hds hlen
    obtain ⟨hnl, hws, hal, hun, hdig⟩ := digit_facts hc
    have hcpos : c.toNat - 48 ≠ 0 := by
      have h48 : 48 ≤ c.toNat ∧ c.toNat ≤ 57 := by simpa [isAsciiDigit] using hc
      intro e
      apply hc0
      have hcn : c.toNat = 48 := by omega
      have h0 : Char.ofNat c.toNat = Char.ofNat 48 := by rw [hcn]
      rw [Char.ofNat_toNat] at h0
      exact h0.trans (by decide)
    have hfirst : tokStep .empty c 1 = .ok (.integer (c.toNat - 48) 1 1, []) := by
      simp only [tokStep, new_state, if_neg hnl, hws, Bool.false_eq_true,
        if_false, hal, Bool.false_or, hdig]
      simp only [hun, hcpos, decide_eq_false, Bool.false_eq_true, if_false,
        if_neg hcpos]
      rfl
    -- split the nine digits into the first eight and the last one
    have hsplit : ds = ds.take 8 ++ ds.drop 8 := (List.take_append_drop 8 ds).symm
    obtain ⟨d9, h9⟩ : ∃ d9, ds.drop 8 = [d9] := by
      have hl1 : (ds.drop 8).length = 1 := by simp [hlen]
      match hd : ds.drop 8 with
      | [d9] => exact ⟨d9, rfl⟩
      | [] => rw [hd] at hl1; simp at hl1
      | x :: y :: zs => rw [hd] at hl1; simp at hl1
    have hds2 : ds = ds.take 8 ++ [d9] := by rw [← h9]; exact hsplit
    have htake : (ds.take 8).length = 8 := by simp [hlen]
    have hd9dig : isAsciiDigit d9 = true := by
      apply hds
      rw [hds2]
      simp
    obtain ⟨_, _, _, _, hdig9⟩ := digit_facts hd9dig
    have hstart : tokenise (c :: ds) =
        tokLoop (.integer (c.toNat - 48) 1 1) 1 ds [] := by
      simp only [tokenise, tokLoop, hfirst, if_neg hnl, List.append_nil]
    have hrun := tokLoop_digit_run (ds.take 8)
      (fun x hx => hds x (List.mem_of_mem_take hx)) (c.toNat - 48) 1 1 1 [d9] []
      (by omega) (by rw [htake])
    rw [hstart, hds2, hrun]
    simp only [tokLoop, tokStep, hdig9]
    rw [if_pos (by rw [htake]; omega)]
  · intro rest
    have h0 : tokStep .empty '0' 1 = .error ⟨0, .LeadingZero⟩ := by decide
    simp only [tokenise, tokLoop, h0]

/-- Witness for C8: the 10-digit literal 1234567890 overflows and 01
has a leading zero. -/
theorem C8_integer_bounds_witness :
    tokenise "1234567890".data = .error ⟨0, .IntegerTooLarge⟩ ∧
    tokenise "01".data = .error ⟨0, .LeadingZero⟩ :=
  ⟨C8_integer_bounds.2.1 '1' "234567890".data (by decide) (by decide)
    (by decide) (by decide),
   C8_integer_bounds.2.2 "1".data⟩

/-! ## Tokeniser invariants (used by claims C6 and C7) -/

theorem matchesUniWord_singleton {c : Char} (h : isUniWordStart c = true) :
    matchesUniWord (String.singleton c) = true := by
  simp [matchesUniWord, String.singleton, isUniWordStart] at h ⊢
  exact h

theorem matchesUniWord_push {v : String} {c : Char}
    (hv : matchesUniWord v = true) (hc : isUniWordChar c = true) :
    matchesUniWord (v.push c) = true := by
  cases v with
  | mk data =>
    cases data with
    | nil => simp [matchesUniWord] at hv
    | cons a rest =>
      simp only [matchesUniWord, Bool.and_eq_true, List.all_eq_true] at hv
      show matchesUniWord ⟨a :: rest ++ [c]⟩ = true
      simp only [matchesUniWord, List.cons_append, Bool.and_eq_true,
        List.all_eq_true]
      refine ⟨hv.1, ?_⟩
      intro x hx
      rw [List.mem_append] at hx
      cases hx with
      | inl h2 => exact hv.2 x h2
      | inr h2 => rw [List.mem_singleton] at h2; subst h2; exact hc

theorem stateLinesAtLeast_mono {m n : Nat} (h : m ≤ n) {st : TokState}
    (hst : stateLinesAtLeast n st) : stateLinesAtLeast m st := by
  cases st <;> first | trivial | exact le_trans h hst

/-- Behaviour of the tokeniser's `new_state` dispatch: emitted tokens
are never `Word` tokens and carry the current line; a created word
state holds a single valid word-start character; every error carries
line 0. -/
theorem new_state_spec (c : Char) (line : Nat) :
    (match new_state c line with
     | .ok (ts, st2) =>
        (∀ t ∈ ts, t.kind ≠ .Word ∧ t.line_no = line) ∧
        stateWordOk (st2.getD .empty) ∧
        stateLinesAtLeast line (st2.getD .empty)
     | .error e => e.line_no = 0) := by
  by_cases h1 : c = '\n'
  · have hred : new_state c line =
        .ok ([⟨.NewLine, line, .StringVal (String.singleton c)⟩], none) := by
      unfold new_state
      rw [if_pos h1]
    rw [hred]
    refine ⟨?_, trivial, trivial⟩
    intro t ht
    rw [List.mem_singleton] at ht
    subst ht
    exact ⟨by simp, rfl⟩
  · by_cases h2 : rustIsWhitespace c = true
    · have hred : new_state c line = .ok ([], none) := by
        unfold new_state
        rw [if_neg h1, if_pos h2]
      rw [hred]
      exact ⟨fun t ht => absurd ht (List.not_mem_nil t), trivial, trivial⟩
    · by_cases h3 : (rustIsAlphabetic c || c = '_') = true
      · have hred : new_state c line =
            .ok ([], some (.word (String.singleton c) line)) := by
          unfold new_state
          rw [if_neg h1, if_neg h2, if_pos h3]
        rw [hred]
        exact ⟨fun t ht => absurd ht (List.not_mem_nil t),
          matchesUniWord_singleton h3, le_refl line⟩
      · rcases hd : rustToDigit10 c with _ | d
        · -- not a digit: punctuation, comment or unknown symbol
          by_cases h4 : c = ':'
          · have hred : new_state c line =
                .ok ([⟨.Colon, line, .StringVal (String.singleton c)⟩], none) := by
              unfold new_state
              rw [if_neg h1, if_neg h2, if_neg h3, hd, if_pos h4]
            rw [hred]
            refine ⟨?_, trivial, trivial⟩
            intro t ht
            rw [List.mem_singleton] at ht
            subst ht
            exact ⟨by simp, rfl⟩
          · -- c is not ':'
            by_cases h5 : c = '{'
            · have hred : new_state c line =
                  .ok ([⟨.OpenBrace, line, .StringVal (String.singleton c)⟩], none) := by
                unfold new_state
                rw [if_neg h1, if_neg h2, if_neg h3, hd, if_neg h4, if_pos h5]
              rw [hred]
              refine ⟨?_, trivial, trivial⟩
              intro t ht
              rw [List.mem_singleton] at ht
              subst ht
              exact ⟨by simp, rfl⟩
            · -- c is not '{'
              by_cases h6 : c = '}'
              · have hred : new_state c line =
                    .ok ([⟨.CloseBrace, line, .StringVal (String.singleton c)⟩], none) := by
                  unfold new_state
                  rw [if_neg h1, if_neg h2, if_neg h3, hd, if_neg h4, if_neg h5, if_pos h6]
                rw [hred]
                refine ⟨?_, trivial, trivial⟩
                intro t ht
                rw [List.mem_singleton] at ht
                subst ht
                exact ⟨by simp, rfl⟩
              · -- c is not '}'
                by_cases h7 : c = ','
                · have hred : new_state c line =
                      .ok ([⟨.Comma, line, .StringVal (String.singleton c)⟩], none) := by
                    unfold new_state
                    rw [if_neg h1, if_neg h2, if_neg h3, hd, if_neg h4, if_neg h5, if_neg h6, if_pos h7]
                  rw [hred]
                  refine ⟨?_, trivial, trivial⟩
                  intro t ht
                  rw [List.mem_singleton] at ht
                  subst ht
                  exact ⟨by simp, rfl⟩
                · -- c is not ','
                  by_cases h8 : c = '['
                  · have hred : new_state c line =
                        .ok ([⟨.OpenBracket, line, .StringVal (String.singleton c)⟩], none) := by
                      unfold new_state
                      rw [if_neg h1, if_neg h2, if_neg h3, hd, if_neg h4, if_neg h5, if_neg h6, if_neg h7, if_pos h8]
                    rw [hred]
                    refine ⟨?_, trivial, trivial⟩
                    intro t ht
                    rw [List.mem_singleton] at ht
                    subst ht
                    exact ⟨by simp, rfl⟩
                  · -- c is not '['
                    by_cases h9 : c = ']'
                    · have hred : new_state c line =
                          .ok ([⟨.CloseBracket, line, .StringVal (String.singleton c)⟩], none) := by
                        unfold new_state
                        rw [if_neg h1, if_neg h2, if_neg h3, hd, if_neg h4, if_neg h5, if_neg h6, if_neg h7, if_neg h8, if_pos h9]
                      rw [hred]
                      refine ⟨?_, trivial, trivial⟩
                      intro t ht
                      rw [List.mem_singleton] at ht
                      subst ht
                      exact ⟨by simp, rfl⟩
                    · -- c is not ']'
                      by_cases h10 : c = ';'
                      · have hred : new_state c line =
                            .ok ([⟨.Semicolon, line, .StringVal (String.singleton c)⟩], none) := by
                          unfold new_state
                          rw [if_neg h1, if_neg h2, if_neg h3, hd, if_neg h4, if_neg h5, if_neg h6, if_neg h7, if_neg h8, if_neg h9, if_pos h10]
                        rw [hred]
                        refine ⟨?_, trivial, trivial⟩
                        intro t ht
                        rw [List.mem_singleton] at ht
                        subst ht
                        exact ⟨by simp, rfl⟩
                      · -- c is not ';'
                        by_cases h11 : c = '/'
                        · have hred : new_state c line = .ok ([], some .comment) := by
                            unfold new_state
                            rw [if_neg h1, if_neg h2, if_neg h3, hd, if_neg h4, if_neg h5, if_neg h6, if_neg h7, if_neg h8, if_neg h9, if_neg h10, if_pos h11]
                          rw [hred]
                          exact ⟨fun t ht => absurd ht (List.not_mem_nil t), trivial, trivial⟩
                        · have hred : new_state c line = .error ⟨0, .UnknownSymbol c⟩ := by
                            unfold new_state
                            rw [if_neg h1, if_neg h2, if_neg h3, hd, if_neg h4, if_neg h5, if_neg h6, if_neg h7, if_neg h8, if_neg h9, if_neg h10, if_neg h11]
                          rw [hred]
        · -- a digit: IntegerState::new
          by_cases h4 : d = 0
          · have hred : new_state c line = .error ⟨0, .LeadingZero⟩ := by
              unfold new_state
              rw [if_neg h1, if_neg h2, if_neg h3, hd]
              subst h4
              rfl
            rw [hred]
          · have hred : new_state c line =
                .ok ([], some (.integer d 1 line)) := by
              unfold new_state
              rw [if_neg h1, if_neg h2, if_neg h3, hd]
              show (if d = 0
                  then (Except.error ⟨0, .LeadingZero⟩ :
                    Except CartaError (List Token × Option TokState))
                  else .ok ([], some (.integer d 1 line))) =
                .ok ([], some (.integer d 1 line))
              rw [if_neg h4]
            rw [hred]
            exact ⟨fun t ht => absurd ht (List.not_mem_nil t), trivial,
              le_refl line⟩
/-- One step of the tokeniser preserves the word-shape and line
invariants; emitted `Word` tokens match the enforced word shape, every
emitted token has a 1-based line, and every error carries line 0. -/
theorem tokStep_spec (st : TokState) (c : Char) (line : Nat)
    (hw : stateWordOk st) (hl : stateLinesAtLeast 1 st) (hline : 1 ≤ line) :
    (match tokStep st c line with
     | .ok (st2, ts) =>
        (∀ t ∈ ts, (t.kind = .Word → matchesUniWord t.get_string = true) ∧
          1 ≤ t.line_no) ∧
        stateWordOk st2 ∧ stateLinesAtLeast 1 st2
     | .error e => e.line_no = 0) := by
  cases st with
  | empty =>
    have hns := new_state_spec c line
    simp only [tokStep]
    cases hq : new_state c line with
    | error e =>
      rw [hq] at hns
      exact hns
    | ok p =>
      obtain ⟨ts, st2⟩ := p
      rw [hq] at hns
      have hns2 : (∀ t ∈ ts, t.kind ≠ .Word ∧ t.line_no = line) ∧
          stateWordOk (st2.getD .empty) ∧
          stateLinesAtLeast line (st2.getD .empty) := hns
      refine ⟨?_, hns2.2.1, stateLinesAtLeast_mono hline hns2.2.2⟩
      intro t ht
      exact ⟨fun hk => absurd hk (hns2.1 t ht).1,
        by rw [(hns2.1 t ht).2]; exact hline⟩
  | word v l =>
    simp only [tokStep]
    by_cases hcont : (rustIsAlphabetic c || rustIsNumeric c || c = '_') = true
    · rw [if_pos hcont]
      exact ⟨fun t ht => absurd ht (List.not_mem_nil t),
        matchesUniWord_push hw hcont, hl⟩
    · rw [if_neg hcont]
      have hns := new_state_spec c line
      cases hq : new_state c line with
      | error e =>
        rw [hq] at hns
        exact hns
      | ok p =>
        obtain ⟨ts, st2⟩ := p
        rw [hq] at hns
        have hns2 : (∀ t ∈ ts, t.kind ≠ .Word ∧ t.line_no = line) ∧
            stateWordOk (st2.getD .empty) ∧
            stateLinesAtLeast line (st2.getD .empty) := hns
        refine ⟨?_, hns2.2.1, stateLinesAtLeast_mono hline hns2.2.2⟩
        intro t ht
        rw [List.mem_cons] at ht
        cases ht with
        | inl h => subst h; exact ⟨fun _ => hw, hl⟩
        | inr h =>
          exact ⟨fun hk => absurd hk (hns2.1 t h).1,
            by rw [(hns2.1 t h).2]; exact hline⟩
  | integer v n l =>
    rcases hd : rustToDigit10 c with _ | d
    · have hstep : tokStep (.integer v n l) c line =
          (new_state c line).map (fun p =>
            (p.2.getD .empty, ⟨.Integer, l, .IntVal v⟩ :: p.1)) := by
        simp only [tokStep, hd]
      rw [hstep]
      have hns := new_state_spec c line
      cases hq : new_state c line with
      | error e =>
        rw [hq] at hns
        exact hns
      | ok p =>
        obtain ⟨ts, st2⟩ := p
        rw [hq] at hns
        have hns2 : (∀ t ∈ ts, t.kind ≠ .Word ∧ t.line_no = line) ∧
            stateWordOk (st2.getD .empty) ∧
            stateLinesAtLeast line (st2.getD .empty) := hns
        refine ⟨?_, hns2.2.1, stateLinesAtLeast_mono hline hns2.2.2⟩
        intro t ht
        rw [List.mem_cons] at ht
        cases ht with
        | inl h => subst h; exact ⟨fun hk => absurd hk (by simp), hl⟩
        | inr h =>
          exact ⟨fun hk => absurd hk (hns2.1 t h).1,
            by rw [(hns2.1 t h).2]; exact hline⟩
    · have hstep : tokStep (.integer v n l) c line =
          (if n > 8 then (.error ⟨0, .IntegerTooLarge⟩ :
            Except CartaError (TokState × List Token))
           else .ok (.integer (v * 10 + d) (n + 1) l, [])) := by
        simp only [tokStep, hd]
      rw [hstep]
      by_cases h8 : n > 8
      · rw [if_pos h8]
      · rw [if_neg h8]
        exact ⟨fun t ht => absurd ht (List.not_mem_nil t), trivial, hl⟩
  | comment =>
    simp only [tokStep]
    by_cases h1 : c = '/'
    · rw [if_pos h1]
      exact ⟨fun t ht => absurd ht (List.not_mem_nil t), trivial, trivial⟩
    · rw [if_neg h1]
      by_cases h2 : c = '*'
      · rw [if_pos h2]
        exact ⟨fun t ht => absurd ht (List.not_mem_nil t), trivial, trivial⟩
      · rw [if_neg h2]
  | lineComment =>
    simp only [tokStep]
    by_cases h1 : c = '\n'
    · rw [if_pos h1]
      exact ⟨fun t ht => absurd ht (List.not_mem_nil t), trivial, trivial⟩
    · rw [if_neg h1]
      exact ⟨fun t ht => absurd ht (List.not_mem_nil t), trivial, trivial⟩
  | blockComment =>
    simp only [tokStep]
    by_cases h1 : c = '*'
    · rw [if_pos h1]
      exact ⟨fun t ht => absurd ht (List.not_mem_nil t), trivial, trivial⟩
    · rw [if_neg h1]
      exact ⟨fun t ht => absurd ht (List.not_mem_nil t), trivial, trivial⟩
  | endBlockComment =>
    simp only [tokStep]
    by_cases h1 : c = '/'
    · rw [if_pos h1]
      exact ⟨fun t ht => absurd ht (List.not_mem_nil t), trivial, trivial⟩
    · rw [if_neg h1]
      exact ⟨fun t ht => absurd ht (List.not_mem_nil t), trivial, trivial⟩

/-- The tokeniser's main loop: every produced `Word` token matches the
enforced word shape, every token carries a 1-based line number, and
every tokeniser error carries line 0. -/
theorem tokLoop_spec (text : List Char) :
    ∀ (st : TokState) (line : Nat) (acc : List Token),
    stateWordOk st → stateLinesAtLeast 1 st → 1 ≤ line →
    (∀ t ∈ acc, (t.kind = .Word → matchesUniWord t.get_string = true) ∧
      1 ≤ t.line_no) →
    (match tokLoop st line text acc with
     | .ok result =>
        ∀ t ∈ result, (t.kind = .Word → matchesUniWord t.get_string = true) ∧
          1 ≤ t.line_no
     | .error e => e.line_no = 0) := by
  induction text with
  | nil =>
    intro st line acc hw hl _ hacc
    cases st with
    | empty => exact hacc
    | word v l =>
      intro t ht
      rw [List.mem_append] at ht
      cases ht with
      | inl h => exact hacc t h
      | inr h =>
        rw [List.mem_singleton] at h
        subst h
        exact ⟨fun _ => hw, hl⟩
    | integer v n l =>
      intro t ht
      rw [List.mem_append] at ht
      cases ht with
      | inl h => exact hacc t h
      | inr h =>
        rw [List.mem_singleton] at h
        subst h
        exact ⟨fun hk => absurd hk (by simp), hl⟩
    | comment => exact hacc
    | lineComment => exact hacc
    | blockComment => rfl
    | endBlockComment => rfl
  | cons c rest ih =>
    intro st line acc hw hl hline hacc
    have hstep := tokStep_spec st c line hw hl hline
    simp only [tokLoop]
    cases hq : tokStep st c line with
    | error e =>
      rw [hq] at hstep
      exact hstep
    | ok p =>
      obtain ⟨st2, emitted⟩ := p
      rw [hq] at hstep
      have hstep2 : (∀ t ∈ emitted,
          (t.kind = .Word → matchesUniWord t.get_string = true) ∧
          1 ≤ t.line_no) ∧ stateWordOk st2 ∧ stateLinesAtLeast 1 st2 := hstep
      refine ih st2 (if c = '\n' then line + 1 else line) (acc ++ emitted)
        hstep2.2.1 hstep2.2.2 ?_ ?_
      · split <;> omega
      · intro t ht
        rw [List.mem_append] at ht
        cases ht with
        | inl h => exact hacc t h
        | inr h => exact hstep2.1 t h

/-! ## Claim C7 -/

/-- Claim C7 (counterexample): the tokeniser does not restrict `Word`
tokens to `[A-Za-z_][A-Za-z0-9_]*`: it uses Rust's Unicode
`char::is_alphabetic`, so the non-ASCII letter `é` (U+00E9) starts a
`Word` and the produced token violates the claimed ASCII regex. -/
theorem C7_counterexample :
    tokenise "é".data = .ok [⟨.Word, 1, .StringVal "é"⟩] ∧
    matchesAsciiWord "é" = false :=
  ⟨by decide, by decide⟩

/-- Claim C7 (amended): every `Word` token produced by the tokeniser
matches `(alphabetic|_)(alphabetic|numeric|_)*` where alphabetic and
numeric are the Unicode classes of Rust's `char::is_alphabetic` and
`char::is_numeric` (on ASCII input these coincide with the claimed
`[A-Za-z_][A-Za-z0-9_]*`). -/
theorem C7_word_shape :
    ∀ (text : List Char) (result : List Token), tokenise text = .ok result →
    ∀ t ∈ result, t.kind = .Word → matchesUniWord t.get_string = true := by
  intro text result h t ht hk
  have hs := tokLoop_spec text .empty 1 []
    trivial trivial (le_refl 1) (fun t2 ht2 => absurd ht2 (List.not_mem_nil t2))
  unfold tokenise at h
  rw [h] at hs
  exact (hs t ht).1 hk

/-- Witness for C7 (amended) on the word `ab`. -/
theorem C7_word_shape_witness :
    matchesUniWord (Token.get_string ⟨.Word, 1, .StringVal "ab"⟩) = true :=
  C7_word_shape "ab".data [⟨.Word, 1, .StringVal "ab"⟩] (by decide)
    ⟨.Word, 1, .StringVal "ab"⟩ (by decide) rfl

/-! ## Claim C6: error line attribution -/

theorem scanForLen_error {id : String} {es : List Element} {e : CartaError}
    (h : scanForLen id es = .error e) : e.line_no = 0 := by
  induction es with
  | nil =>
    simp only [scanForLen] at h
    injection h with h2
    subst h2
    rfl
  | cons a rest ih =>
    obtain ⟨aname, aline, akind⟩ := a
    cases akind with
    | TypeName t =>
      simp only [scanForLen] at h
      by_cases hn : (aname == id) = true
      · rw [if_pos hn] at h
        by_cases hit : is_type_class t .Integer = true
        · rw [if_pos hit] at h
          exact Except.noConfusion h
        · rw [if_neg hit] at h
          injection h with h2
          subst h2
          rfl
      · rw [if_neg hn] at h
        exact ih h
    | ArrayElem ad =>
      simp only [scanForLen] at h
      by_cases hn : (aname == id) = true
      · rw [if_pos hn] at h
        injection h with h2
        subst h2
        rfl
      · rw [if_neg hn] at h
        exact ih h

theorem check_array_elem_error {s : StructDefn} {arr : ArrayDefn}
    {i : Nat} {e : CartaError} (h : check_array_elem s arr i = .error e) :
    e.line_no = 0 := by
  obtain ⟨akind, alen⟩ := arr
  cases alen with
  | Identifier id =>
    simp only [check_array_elem] at h
    exact scanForLen_error h
  | Static n =>
    simp [check_array_elem] at h

theorem check_struct_arrays_error {s : StructDefn} {e : CartaError} :
    ∀ {i : Nat} {es : List Element},
    check_struct_arrays s i es = .error e → e.line_no = 0 := by
  intro i es
  induction es generalizing i with
  | nil => intro h; exact Except.noConfusion h
  | cons a rest ih =>
    intro h
    obtain ⟨aname, aline, akind⟩ := a
    cases akind with
    | TypeName t =>
      simp only [check_struct_arrays] at h
      exact ih h
    | ArrayElem ad =>
      simp only [check_struct_arrays] at h
      cases hc : check_array_elem s ad i with
      | error e2 =>
        simp only [hc] at h
        injection h with h2
        subst h2
        exact check_array_elem_error hc
      | ok u =>
        simp only [hc] at h
        exact ih h

theorem check_array_lengths_go_error {e : CartaError} :
    ∀ {l : List StructDefn}, check_array_lengths_go l = .error e →
    e.line_no = 0 := by
  intro l
  induction l with
  | nil => intro h; exact Except.noConfusion h
  | cons s rest ih =>
    intro h
    simp only [check_array_lengths_go] at h
    cases hc : check_struct_arrays s 0 s.elements with
    | error e2 =>
      simp only [hc] at h
      injection h with h2
      subst h2
      exact check_struct_arrays_error hc
    | ok u =>
      simp only [hc] at h
      exact ih h

/-- Every error of the correctness pass carries line 0. -/
theorem check_schema_error {schema : TSchema} {e : CartaError}
    (h : check_schema schema = .error e) : e.line_no = 0 := by
  unfold check_schema check_root_element at h
  by_cases hr : (!mapContains schema.types "root") = true
  · rw [if_pos hr] at h
    injection h with h2
    subst h2
    rfl
  · rw [if_neg hr] at h
    exact check_array_lengths_go_error h

/-- Every error of the parser's file-scope dispatch carries the
offending token's line. -/
theorem parser_new_state_error {t : Token} {e : CartaError}
    (h : parser_new_state t = .error e) : e.line_no = t.line_no := by
  unfold parser_new_state at h
  by_cases h1 : t.kind = .Word
  · rw [if_pos h1] at h
    by_cases h2 : t.get_string = "struct"
    · rw [if_pos h2] at h
      exact Except.noConfusion h
    · rw [if_neg h2] at h
      injection h with h2
      subst h2
      rfl
  · rw [if_neg h1] at h
    by_cases h2 : t.kind = .NewLine
    · rw [if_pos h2] at h
      exact Except.noConfusion h
    · rw [if_neg h2] at h
      injection h with h2
      subst h2
      rfl

/-- Every error of `StructState::new_token` carries the offending
token's line. -/
theorem structStep_error {s : StructStateData} {t : Token}
    {structs : List StructDefn} {e : CartaError}
    (h : structStep s t structs = some (.error e)) :
    e.line_no = t.line_no := by
  obtain ⟨sst, snm, scc, sncn⟩ := s
  unfold structStep at h
  by_cases hnl : t.kind = .NewLine
  · rw [if_pos hnl] at h
    exact absurd h (by simp)
  · rw [if_neg hnl] at h
    cases sst <;> cases htk : t.kind <;> rw [htk] at h <;>
      first
      | (exfalso; simp at h; done)
      | (simp at h; subst h; rfl)

/-- Every error of `ArrayState::new_token` carries the offending
token's line. -/
theorem arrayStep_error {a : ArrayStateData} {t : Token}
    {structs : List StructDefn} {e : CartaError}
    (h : arrayStep a t structs = some (.error e)) :
    e.line_no = t.line_no := by
  obtain ⟨apar, ast, akind, alen⟩ := a
  unfold arrayStep at h
  by_cases hnl : t.kind = .NewLine
  · rw [if_pos hnl] at h
    exact absurd h (by simp)
  · rw [if_neg hnl] at h
    cases ast <;> cases htk : t.kind <;> rw [htk] at h <;>
      first
      | (exfalso; simp at h; done)
      | (simp at h; subst h; rfl)
      | (cases akind <;> cases alen <;> exfalso <;> simp at h)

/-- Every parse error reported while consuming a token carries that
token's line. -/
theorem parseStep_error {st : PState} {t : Token}
    {structs : List StructDefn} {e : CartaError}
    (h : parseStep st t structs = some (.error e)) :
    e.line_no = t.line_no := by
  cases st with
  | empty =>
    simp only [parseStep] at h
    cases hq : parser_new_state t with
    | error e2 =>
      rw [hq] at h
      simp only [Option.some.injEq, Except.error.injEq] at h
      subst h
      exact parser_new_state_error hq
    | ok o =>
      rw [hq] at h
      cases o <;> simp at h
  | structSt s => exact structStep_error h
  | arraySt a => exact arrayStep_error h

/-- Every parser error is either `IncompleteInput` (line 0) or carries
a token's 1-based line. -/
theorem parseLoop_error :
    ∀ (tokens : List Token) (st : PState) (structs : List StructDefn)
      (e : CartaError), (∀ t ∈ tokens, 1 ≤ t.line_no) →
    parseLoop st tokens structs = some (.error e) →
    e.code = .IncompleteInput ∨ 1 ≤ e.line_no := by
  intro tokens
  induction tokens with
  | nil =>
    intro st structs e _ h
    cases st with
    | empty => simp [parseLoop] at h
    | structSt s =>
      simp only [parseLoop, Option.some.injEq, Except.error.injEq] at h
      subst h
      exact Or.inl rfl
    | arraySt a =>
      simp only [parseLoop, Option.some.injEq, Except.error.injEq] at h
      subst h
      exact Or.inl rfl
  | cons t rest ih =>
    intro st structs e hlines h
    simp only [parseLoop] at h
    cases hq : parseStep st t structs with
    | none => rw [hq] at h; exact Option.noConfusion h
    | some r =>
      rw [hq] at h
      cases r with
      | error e2 =>
        simp only [Option.some.injEq, Except.error.injEq] at h
        subst h
        refine Or.inr ?_
        rw [parseStep_error hq]
        exact hlines t (by simp)
      | ok p =>
        obtain ⟨st2, structs2⟩ := p
        exact ih st2 structs2 e
          (fun x hx => hlines x (List.mem_cons_of_mem t hx)) h

/-- Claim C6 (counterexample): compile errors do not always carry a
1-based line number.  The correctness pass builds its errors with line
0 (`struct foo {a: int8}` fails `MissingRootElement` at line 0), and so
does the tokeniser (`!` fails `UnknownSymbol` at line 0). -/
theorem C6_counterexample :
    compile_schema_file "struct foo \x7ba: int8\x7d".data =
      some (.error ⟨0, .MissingRootElement⟩) ∧
    tokenise ['!'] = .error ⟨0, .UnknownSymbol '!'⟩ ∧
    ¬(1 ≤ (0 : Nat)) :=
  ⟨by decide, by decide, by decide⟩

/-- Claim C6 (amended): tokens carry 1-based line numbers, and parse
errors carry the offending token's 1-based line — but every
tokeniser-stage error (UnknownSymbol, LeadingZero, IntegerTooLarge,
UnexpectedSymbol, UnclosedBlockComment), every correctness-stage error
(MissingRootElement, BadArrayLen, BadArrayLenType) and IncompleteInput
carry line_no 0, not a 1-based location. -/
theorem C6_error_lines :
    (∀ (text : List Char) (e : CartaError), tokenise text = .error e →
      e.line_no = 0) ∧
    (∀ (text : List Char) (result : List Token), tokenise text = .ok result →
      ∀ t ∈ result, 1 ≤ t.line_no) ∧
    (∀ (schema : TSchema) (e : CartaError), check_schema schema = .error e →
      e.line_no = 0) ∧
    (∀ (tokens : List Token) (e : CartaError),
      (∀ t ∈ tokens, 1 ≤ t.line_no) →
      compile_schema tokens = some (.error e) →
      e.code = .IncompleteInput ∨ 1 ≤ e.line_no) := by
  refine ⟨?_, ?_, ?_, ?_⟩
  · intro text e h
    have hs := tokLoop_spec text .empty 1 []
      trivial trivial (le_refl 1)
      (fun t2 ht2 => absurd ht2 (List.not_mem_nil t2))
    unfold tokenise at h
    rw [h] at hs
    exact hs
  · intro text result h t ht
    have hs := tokLoop_spec text .empty 1 []
      trivial trivial (le_refl 1)
      (fun t2 ht2 => absurd ht2 (List.not_mem_nil t2))
    unfold tokenise at h
    rw [h] at hs
    exact (hs t ht).2
  · intro schema e h
    exact check_schema_error h
  · intro tokens e hlines h
    exact parseLoop_error tokens .empty [] e hlines h

/-- Witness for C6 (amended): the tokeniser error on `!` carries
line 0. -/
theorem C6_error_lines_witness :
    (⟨0, .UnknownSymbol '!'⟩ : CartaError).line_no = 0 :=
  C6_error_lines.1 ['!'] ⟨0, .UnknownSymbol '!'⟩ (by decide)

/-! ## Applier tree invariants (claims C2 and C3) -/

/-- `build_single_val` returns a nugget at the requested start with the
requested name, consuming exactly its length, and the tree invariant
holds. -/
theorem build_single_val_spec {rec : RecFn} (hrec : RecOk rec)
    {schema : TSchema} {file_data : List Nat} {typename : String}
    {start : Nat} {name : String} {n : Nugget} {s : Nat}
    (h : build_single_val rec schema file_data typename start name =
      .ok (n, s)) :
    n.name = name ∧ n.start = start ∧ s = n.len ∧ OkTree n := by
  unfold build_single_val at h
  by_cases hb : is_builtin_type typename = true
  · rw [if_pos hb] at h
    by_cases hs : start ≤ file_data.length
    · rw [if_pos hs] at h
      cases hg : get_value (file_data.drop start) typename with
      | none =>
        simp only [hg] at h
        exact RRes.noConfusion h
      | some p =>
        obtain ⟨size, val⟩ := p
        cases val with
        | none =>
          simp only [hg] at h
          exact RRes.noConfusion h
        | some v =>
          simp only [hg] at h
          injection h with hp
          injection hp with h1 h2
          subst h1
          subst h2
          refine ⟨rfl, rfl, rfl, ?_⟩
          exact OkTree.mk start size name (some v) []
            (fun hne => absurd rfl hne)
            (fun c hc => absurd hc (List.not_mem_nil c))
    · rw [if_neg hs] at h
      exact RRes.noConfusion h
  · rw [if_neg hb] at h
    cases hm : mapGet schema.types typename with
    | none =>
      simp only [hm] at h
      exact RRes.noConfusion h
    | some child_kind =>
      simp only [hm] at h
      cases hr : rec child_kind start name with
      | ok child =>
        simp only [hr] at h
        injection h with hp
        injection hp with h1 h2
        subst h1
        subst h2
        obtain ⟨hnm, hst, _, ht⟩ := hrec child_kind start name child hr
        exact ⟨hnm, hst, rfl, ht⟩
      | panic =>
        simp only [hr] at h
        exact RRes.noConfusion h
      | fuelOut =>
        simp only [hr] at h
        exact RRes.noConfusion h

/-- The array-child loop produces exactly `count` children named by
consecutive decimal indices, consuming the sum of their lengths, laid
out back to back. -/
theorem build_array_children_spec {rec : RecFn} (hrec : RecOk rec)
    {schema : TSchema} {file_data : List Nat} {kind : String}
    {start : Nat} :
    ∀ (count i size : Nat) (acc cs : List Nugget) (sz : Nat),
    build_array_children rec schema file_data kind start count i size acc =
      .ok (cs, sz) →
    ∃ new, cs = acc ++ new ∧ new.length = count ∧
      new.map Nugget.name = (List.range' i count).map toString ∧
      sz = size + sumLens new ∧ chainFrom (start + size) new ∧
      ∀ c ∈ new, OkTree c := by
  intro count
  induction count with
  | zero =>
    intro i size acc cs sz h
    simp only [build_array_children] at h
    injection h with hp
    injection hp with h1 h2
    subst h1
    subst h2
    exact ⟨[], by simp, rfl, by simp, by simp [sumLens], trivial,
      fun c hc => absurd hc (List.not_mem_nil c)⟩
  | succ k ih =>
    intro i size acc cs sz h
    simp only [build_array_children] at h
    cases hc : build_single_val rec schema file_data kind (start + size)
        (toString i) with
    | ok p =>
      obtain ⟨child, len⟩ := p
      simp only [hc] at h
      obtain ⟨new', hcs, hlen, hnames, hsz, hchain, hok⟩ :=
        ih (i + 1) (size + len) (acc ++ [child]) cs sz h
      obtain ⟨hn1, hn2, hn3, hn4⟩ := build_single_val_spec hrec hc
      subst hn3
      refine ⟨child :: new', ?_, ?_, ?_, ?_, ?_, ?_⟩
      · rw [hcs, List.append_assoc]
        rfl
      · simp [hlen]
      · rw [List.map_cons, hnames, hn1, List.range'_succ, List.map_cons]
      · rw [hsz]
        simp only [sumLens, List.map_cons, List.sum_cons]
        omega
      · simp only [chainFrom]
        refine ⟨hn2, ?_⟩
        rw [Nat.add_assoc]
        exact hchain
      · intro c hc2
        cases List.mem_cons.mp hc2 with
        | inl h2 => subst h2; exact hn4
        | inr h2 => exact hok c h2
    | panic =>
      simp only [hc] at h
      exact RRes.noConfusion h
    | fuelOut =>
      simp only [hc] at h
      exact RRes.noConfusion h

/-- `get_elem_size_value` is the linear search for the first sibling
with the given name, parsing its value as `usize`. -/
theorem get_elem_size_value_find (name : String) :
    ∀ l : List Nugget, get_elem_size_value name l =
      (l.find? (fun g => g.name == name)).map
        (fun g => g.value.bind parseUsize) := by
  intro l
  induction l with
  | nil => rfl
  | cons g rest ih =>
    simp only [get_elem_size_value, List.find?_cons]
    by_cases hn : (g.name == name) = true
    · rw [if_pos hn, hn]
      simp only [Option.map_some']
      cases hv : g.value with
      | none => rfl
      | some v =>
        cases hp : parseUsize v <;> simp [hp]
    · rw [if_neg hn, Bool.of_not_eq_true hn]
      exact ih

/-- `build_array_val` produces a value-less array nugget whose children
are indexed decimally, whose length is the sum of its children's
lengths, with the count resolved statically or through the sibling
search. -/
theorem build_array_val_spec {rec : RecFn} (hrec : RecOk rec)
    {schema : TSchema} {file_data : List Nat} {array_defn : ArrayDefn}
    {start : Nat} {name : String} {siblings : List Nugget} {ng : Nugget}
    {sz : Nat}
    (h : build_array_val rec schema file_data array_defn start name
      siblings = .ok (ng, sz)) :
    ng.name = name ∧ ng.start = start ∧ ng.value = none ∧ sz = ng.len ∧
    ng.len = sumLens ng.children ∧ chainFrom ng.start ng.children ∧
    OkTree ng ∧
    ng.children.map Nugget.name =
      (List.range' 0 ng.children.length).map toString ∧
    (∀ k, array_defn.length = .Static k → ng.children.length = k) ∧
    (∀ id, array_defn.length = .Identifier id →
      get_elem_size_value id siblings = some (some ng.children.length)) := by
  unfold build_array_val at h
  cases hres : resolve_array_len array_defn.length siblings with
  | none =>
    simp only [hres] at h
    exact RRes.noConfusion h
  | some o =>
    cases o with
    | none =>
      simp only [hres] at h
      exact RRes.noConfusion h
    | some len =>
      simp only [hres] at h
      cases hbc : build_array_children rec schema file_data array_defn.kind
          start len 0 0 [] with
      | ok p =>
        obtain ⟨children, size⟩ := p
        simp only [hbc] at h
        injection h with hp
        injection hp with h1 h2
        subst h1
        subst h2
        obtain ⟨new, hcs, hlen, hnames, hsz, hchain, hok⟩ :=
          build_array_children_spec hrec len 0 0 [] children size hbc
        rw [List.nil_append] at hcs
        subst hcs
        have hchain0 : chainFrom start children := by
          simpa using hchain
        have hsum : size = sumLens children := by
          simpa using hsz
        refine ⟨rfl, rfl, rfl, rfl, hsum, hchain0, ?_, ?_, ?_, ?_⟩
        · exact OkTree.mk start size name none children
            (fun _ => ⟨hsum, hchain0⟩) hok
        · show children.map Nugget.name =
            (List.range' 0 children.length).map toString
          rw [hlen, hnames]
        · intro k hk
          rw [hk] at hres
          simp only [resolve_array_len, Option.some.injEq] at hres
          show children.length = k
          omega
        · intro id hid
          rw [hid] at hres
          simp only [resolve_array_len] at hres
          show get_elem_size_value id siblings = some (some children.length)
          rw [hres, hlen]
      | panic =>
        simp only [hbc] at h
        exact RRes.noConfusion h
      | fuelOut =>
        simp only [hbc] at h
        exact RRes.noConfusion h

/-- The element loop of `build_nugget` lays its children out back to
back and accumulates the sum of their lengths. -/
theorem build_children_spec {rec : RecFn} (hrec : RecOk rec)
    {schema : TSchema} {file_data : List Nat} {start : Nat} :
    ∀ (elems : List Element) (lenAcc : Nat) (acc cs : List Nugget)
      (len : Nat),
    build_children rec schema file_data start elems lenAcc acc =
      .ok (cs, len) →
    ∃ new, cs = acc ++ new ∧ len = lenAcc + sumLens new ∧
      chainFrom (start + lenAcc) new ∧ ∀ c ∈ new, OkTree c := by
  intro elems
  induction elems with
  | nil =>
    intro lenAcc acc cs len h
    simp only [build_children] at h
    injection h with hp
    injection hp with h1 h2
    subst h1
    subst h2
    exact ⟨[], by simp, by simp [sumLens], trivial,
      fun c hc => absurd hc (List.not_mem_nil c)⟩
  | cons el rest ih =>
    intro lenAcc acc cs len h
    obtain ⟨ename, eline, ekind⟩ := el
    cases ekind with
    | TypeName t =>
      simp only [build_children] at h
      cases hc : build_single_val rec schema file_data t (start + lenAcc)
          ename with
      | ok p =>
        obtain ⟨ng, size⟩ := p
        simp only [hc] at h
        obtain ⟨new', hcs, hlen, hchain, hok⟩ :=
          ih (lenAcc + size) (acc ++ [ng]) cs len h
        obtain ⟨_, hn2, hn3, hn4⟩ := build_single_val_spec hrec hc
        subst hn3
        refine ⟨ng :: new', ?_, ?_, ?_, ?_⟩
        · rw [hcs, List.append_assoc]
          rfl
        · rw [hlen]
          simp only [sumLens, List.map_cons, List.sum_cons]
          omega
        · simp only [chainFrom]
          refine ⟨hn2, ?_⟩
          rw [Nat.add_assoc]
          exact hchain
        · intro c hc2
          cases List.mem_cons.mp hc2 with
          | inl h2 => subst h2; exact hn4
          | inr h2 => exact hok c h2
      | panic =>
        simp only [hc] at h
        exact RRes.noConfusion h
      | fuelOut =>
        simp only [hc] at h
        exact RRes.noConfusion h
    | ArrayElem ad =>
      simp only [build_children] at h
      cases hc : build_array_val rec schema file_data ad (start + lenAcc)
          ename acc with
      | ok p =>
        obtain ⟨ng, size⟩ := p
        simp only [hc] at h
        obtain ⟨new', hcs, hlen, hchain, hok⟩ :=
          ih (lenAcc + size) (acc ++ [ng]) cs len h
        obtain ⟨_, hn2, _, hn3, _, _, hn7, _, _, _⟩ :=
          build_array_val_spec hrec hc
        subst hn3
        refine ⟨ng :: new', ?_, ?_, ?_, ?_⟩
        · rw [hcs, List.append_assoc]
          rfl
        · rw [hlen]
          simp only [sumLens, List.map_cons, List.sum_cons]
          omega
        · simp only [chainFrom]
          refine ⟨hn2, ?_⟩
          rw [Nat.add_assoc]
          exact hchain
        · intro c hc2
          cases List.mem_cons.mp hc2 with
          | inl h2 => subst h2; exact hn7
          | inr h2 => exact hok c h2
      | panic =>
        simp only [hc] at h
        exact RRes.noConfusion h
      | fuelOut =>
        simp only [hc] at h
        exact RRes.noConfusion h

/-- `build_nugget` is a well-behaved recursive call at every fuel. -/
theorem build_nugget_spec :
    ∀ (fuel : Nat) (schema : TSchema) (file_data : List Nat)
      (defn : StructDefn) (st : Nat) (nm : String) (n : Nugget),
    build_nugget fuel schema file_data defn st nm = .ok n →
    n.name = nm ∧ n.start = st ∧ n.value = none ∧ OkTree n := by
  intro fuel
  induction fuel with
  | zero => intro schema file_data defn st nm n h; exact RRes.noConfusion h
  | succ f ih =>
    intro schema file_data defn st nm n h
    simp only [build_nugget] at h
    cases hbc : build_children
        (fun d s2 n2 => build_nugget f schema file_data d s2 n2)
        schema file_data st defn.elements 0 [] with
    | ok p =>
      obtain ⟨children, len⟩ := p
      simp only [hbc] at h
      injection h with h1
      subst h1
      have hrec : RecOk (fun d s2 n2 => build_nugget f schema file_data d s2 n2) :=
        fun d s2 n2 nn hh => ih schema file_data d s2 n2 nn hh
      obtain ⟨new, hcs, hlen, hchain, hok⟩ :=
        build_children_spec hrec defn.elements 0 [] children len hbc
      rw [List.nil_append] at hcs
      subst hcs
      refine ⟨rfl, rfl, rfl, ?_⟩
      refine OkTree.mk st len nm none children (fun _ => ⟨?_, ?_⟩) hok
      · simpa using hlen
      · simpa using hchain
    | panic =>
      simp only [hbc] at h
      exact RRes.noConfusion h
    | fuelOut =>
      simp only [hbc] at h
      exact RRes.noConfusion h

/-! ## Claim C2 -/

/-- Claim C2: every Nugget tree returned by the applier satisfies the
sum-of-children invariant — each non-leaf node's `len` is the sum of
its children's `len`s and each child starts at its parent's start plus
the lengths of its preceding siblings — and the root starts at 0. -/
theorem C2_tree_invariants (fuel : Nat) (schema : TSchema)
    (file_data : List Nat) (n : Nugget)
    (h : apply_schema fuel schema file_data = .ok n) :
    OkTree n ∧ n.start = 0 := by
  unfold apply_schema at h
  cases hm : mapGet schema.types "root" with
  | none =>
    simp only [hm] at h
    exact RRes.noConfusion h
  | some root_struct =>
    simp only [hm] at h
    obtain ⟨_, hst, _, ht⟩ :=
      build_nugget_spec fuel schema file_data root_struct 0 "root" n h
    exact ⟨ht, hst⟩

/-- Witness for C2 on a two-field schema applied to two bytes. -/
theorem C2_tree_invariants_witness :
    apply_schema 9 ⟨[⟨"root", 1, [⟨"a", 1, .TypeName "int8"⟩,
        ⟨"b", 1, .TypeName "int8"⟩]⟩]⟩ [5, 7] =
      .ok (.mk 0 2 "root" none
        [.mk 0 1 "a" (some "5") [], .mk 1 1 "b" (some "7") []]) ∧
    OkTree (.mk 0 2 "root" none
        [.mk 0 1 "a" (some "5") [], .mk 1 1 "b" (some "7") []]) ∧
    (Nugget.mk 0 2 "root" none
        [.mk 0 1 "a" (some "5") [], .mk 1 1 "b" (some "7") []]).start = 0 :=
  ⟨rfl,
   (C2_tree_invariants 9 ⟨[⟨"root", 1, [⟨"a", 1, .TypeName "int8"⟩,
      ⟨"b", 1, .TypeName "int8"⟩]⟩]⟩ [5, 7] _ rfl).1,
   (C2_tree_invariants 9 ⟨[⟨"root", 1, [⟨"a", 1, .TypeName "int8"⟩,
      ⟨"b", 1, .TypeName "int8"⟩]⟩]⟩ [5, 7] _ rfl).2⟩

/-! ## Claim C3 -/

/-- Claim C3: an array element with a `Static(n)` length yields exactly
`n` children; an `Identifier(id)` length is resolved by a linear search
over the sibling nuggets already emitted (the first one named `id`),
parsing its value string as a decimal non-negative integer; the array
nugget's children are named "0", "1", ... by decimal index, its value
is `None`, and its `len` is the sum of its children's lengths. -/
theorem C3_array_build (rec : RecFn) (hrec : RecOk rec) (schema : TSchema)
    (file_data : List Nat) (array_defn : ArrayDefn) (start : Nat)
    (name : String) (siblings : List Nugget) (ng : Nugget) (sz : Nat)
    (h : build_array_val rec schema file_data array_defn start name
      siblings = .ok (ng, sz)) :
    ng.value = none ∧ ng.len = sumLens ng.children ∧ sz = ng.len ∧
    ng.children.map Nugget.name =
      (List.range' 0 ng.children.length).map toString ∧
    (∀ k, array_defn.length = .Static k → ng.children.length = k) ∧
    (∀ id, array_defn.length = .Identifier id →
      ∃ g, siblings.find? (fun s2 => s2.name == id) = some g ∧
        ∃ v, g.value = some v ∧ parseUsize v = some ng.children.length) := by
  obtain ⟨_, _, hval, hsz, hsum, _, _, hnames, hstat, hident⟩ :=
    build_array_val_spec hrec h
  refine ⟨hval, hsum, hsz, hnames, hstat, ?_⟩
  intro id hid
  have hg := hident id hid
  rw [get_elem_size_value_find] at hg
  cases hf : siblings.find? (fun s2 => s2.name == id) with
  | none => rw [hf] at hg; exact Option.noConfusion hg
  | some g =>
    rw [hf] at hg
    simp only [Option.map_some', Option.some.injEq] at hg
    refine ⟨g, rfl, ?_⟩
    cases hv : g.value with
    | none => rw [hv] at hg; exact Option.noConfusion hg
    | some v =>
      rw [hv] at hg
      exact ⟨v, rfl, hg⟩

/-- Witness for C3 on a static two-element `uint8` array over bytes
`[3, 4]`. -/
theorem C3_array_build_witness :
    (Nugget.mk 0 2 "arr" none [.mk 0 1 "0" (some "3") [],
      .mk 1 1 "1" (some "4") []]).value = none ∧
    (Nugget.mk 0 2 "arr" none [.mk 0 1 "0" (some "3") [],
      .mk 1 1 "1" (some "4") []]).children.length = 2 := by
  have h := C3_array_build (fun _ _ _ => .fuelOut)
    (fun _ _ _ _ hh => RRes.noConfusion hh) ⟨[]⟩ [3, 4]
    ⟨"uint8", .Static 2⟩ 0 "arr" []
    (.mk 0 2 "arr" none [.mk 0 1 "0" (some "3") [],
      .mk 1 1 "1" (some "4") []]) 2 rfl
  exact ⟨h.1, h.2.2.2.2.1 2 rfl⟩

/-! ## Claim C1: basic bridges -/

theorem scontains_iff (l : List String) (a : String) :
    l.contains a = true ↔ a ∈ l := by
  simp

theorem mapGet_mem {tm : List StructDefn} {k : String} {p : StructDefn}
    (h : mapGet tm k = some p) : p ∈ tm ∧ p.name = k := by
  rw [mapGet] at h
  have hpk := List.find?_some h
  exact ⟨List.mem_of_find?_eq_some h, beq_iff_eq.mp hpk⟩

theorem struct_name_inj {tm : List StructDefn}
    (hnd : (tm.map StructDefn.name).Nodup) {s s' : StructDefn}
    (hs : s ∈ tm) (hs' : s' ∈ tm) (he : s.name = s'.name) : s = s' :=
  List.inj_on_of_nodup_map hnd hs hs' he

theorem mapGet_eq_of_mem {tm : List StructDefn}
    (hnd : (tm.map StructDefn.name).Nodup) {s : StructDefn}
    (hs : s ∈ tm) : mapGet tm s.name = some s := by
  cases hf : mapGet tm s.name with
  | none =>
    rw [mapGet, List.find?_eq_none] at hf
    exact absurd (beq_iff_eq.mpr rfl) (hf s hs)
  | some p =>
    obtain ⟨hp, hpn⟩ := mapGet_mem hf
    rw [struct_name_inj hnd hp hs hpn]

theorem mapContains_iff (tm : List StructDefn) (k : String) :
    mapContains tm k = true ↔ ∃ s ∈ tm, s.name = k := by
  rw [mapContains, List.any_eq_true]
  constructor
  · rintro ⟨s, hs, hb⟩
    exact ⟨s, hs, beq_iff_eq.mp hb⟩
  · rintro ⟨s, hs, hb⟩
    exact ⟨s, hs, beq_iff_eq.mpr hb⟩

theorem allRefsResolved_iff (R : List String) (s : StructDefn) :
    allRefsResolved R s = true ↔ ∀ m ∈ s.elements,
      is_builtin_type (elementTypeName m.kind) = true ∨
      elementTypeName m.kind ∈ R := by
  rw [allRefsResolved, List.all_eq_true]
  constructor
  · intro h m hm
    rcases (Bool.or_eq_true _ _).mp (h m hm) with hb | hc
    · exact .inl hb
    · exact .inr ((scontains_iff R _).mp hc)
  · intro h m hm
    rcases h m hm with hb | hc
    · exact (Bool.or_eq_true _ _).mpr (.inl hb)
    · exact (Bool.or_eq_true _ _).mpr (.inr ((scontains_iff R _).mpr hc))

theorem allRefsResolved_mono {R R' : List String} {s : StructDefn}
    (hsub : ∀ r ∈ R, r ∈ R') (h : allRefsResolved R s = true) :
    allRefsResolved R' s = true := by
  rw [allRefsResolved_iff] at h ⊢
  intro m hm
  rcases h m hm with hb | hc
  · exact .inl hb
  · exact .inr (hsub _ hc)

theorem allRefsResolved_false {R : List String} {s : StructDefn}
    (h : allRefsResolved R s = false) :
    ∃ m ∈ s.elements,
      is_builtin_type (elementTypeName m.kind) = false ∧
      elementTypeName m.kind ∉ R := by
  by_contra hc
  push_neg at hc
  have htrue : allRefsResolved R s = true := by
    rw [allRefsResolved_iff]
    intro m hm
    by_cases hb : is_builtin_type (elementTypeName m.kind) = true
    · exact .inl hb
    · exact .inr (hc m hm (by simpa using hb))
  rw [h] at htrue
  exact Bool.noConfusion htrue

theorem depsGet_nil (t : String) : depsGet [] t = [] := rfl

theorem find_map_fst_preserving (key q t : String) :
    ∀ deps : List (String × List String),
      (deps.map (fun p => if p.1 == key then (p.1, p.2 ++ [q]) else p)).find?
          (fun p => p.1 == t) =
        (deps.find? (fun p => p.1 == t)).map
          (fun p => if p.1 == key then (p.1, p.2 ++ [q]) else p) := by
  intro deps
  induction deps with
  | nil => rfl
  | cons d rest ih =>
    rw [List.map_cons]
    by_cases hk : (d.1 == key) = true
    · by_cases ht : (d.1 == t) = true
      · rw [if_pos hk, List.find?_cons, List.find?_cons]
        simp only [ht, Option.map_some']
        rw [if_pos hk]
      · rw [if_pos hk, List.find?_cons, List.find?_cons]
        simp only [ht]
        exact ih
    · by_cases ht : (d.1 == t) = true
      · rw [if_neg hk, List.find?_cons, List.find?_cons]
        simp only [ht, Option.map_some']
        rw [if_neg hk]
      · rw [if_neg hk, List.find?_cons, List.find?_cons]
        simp only [ht]
        exact ih

theorem depsGet_depsAdd (deps : List (String × List String))
    (key q t : String) :
    depsGet (depsAdd deps key q) t =
      if t = key then depsGet deps t ++ [q] else depsGet deps t := by
  by_cases hp : (deps.any (fun p => p.1 == key)) = true
  · rw [depsAdd, if_pos hp, depsGet, depsGet, find_map_fst_preserving]
    cases hf : deps.find? (fun p => p.1 == t) with
    | none =>
      simp only [Option.map_none', Option.getD_none]
      by_cases htk : t = key
      · exfalso
        rw [List.any_eq_true] at hp
        obtain ⟨d, hd, hdk⟩ := hp
        rw [List.find?_eq_none] at hf
        apply hf d hd
        rw [beq_iff_eq] at hdk ⊢
        rw [hdk, htk]
      · rw [if_neg htk]
    | some e =>
      simp only [Option.map_some', Option.getD_some]
      have hfs := List.find?_some hf
      have het : e.1 = t := beq_iff_eq.mp hfs
      by_cases htk : t = key
      · rw [if_pos (show (e.1 == key) = true from beq_iff_eq.mpr (het.trans htk)),
          if_pos htk]
      · rw [if_neg (show ¬(e.1 == key) = true from fun hcon =>
          htk (by rw [← het]; exact beq_iff_eq.mp hcon)), if_neg htk]
  · rw [depsAdd, if_neg hp, depsGet, depsGet, List.find?_append]
    cases hf : deps.find? (fun p => p.1 == t) with
    | none =>
      simp only [hf, Option.none_or, Option.map_none', Option.getD_none]
      by_cases hkt : (key == t) = true
      · rw [List.find?_cons]
        simp only [hkt, Option.map_some', Option.getD_some]
        have htk : t = key := (beq_iff_eq.mp hkt).symm
        rw [if_pos htk]
        rfl
      · rw [List.find?_cons]
        have hkf : (key == t) = false := by simpa using hkt
        simp only [hkf, List.find?_nil, Option.map_none', Option.getD_none]
        have htk : ¬ t = key := fun hcon => hkt (beq_iff_eq.mpr hcon.symm)
        rw [if_neg htk]
    | some e =>
      simp only [hf, Option.or_some, Option.map_some', Option.getD_some]
      have hfs := List.find?_some hf
      have het : e.1 = t := beq_iff_eq.mp hfs
      have htk : ¬ t = key := by
        intro hcon
        exact hp (List.any_eq_true.mpr ⟨e, List.mem_of_find?_eq_some hf,
          beq_iff_eq.mpr (het.trans hcon)⟩)
      rw [if_neg htk]

theorem depsAdd_mem_self (deps : List (String × List String))
    (key q : String) : q ∈ depsGet (depsAdd deps key q) key := by
  rw [depsGet_depsAdd, if_pos rfl]
  exact List.mem_append_right _ (List.mem_singleton.mpr rfl)

theorem depsAdd_mono {deps : List (String × List String)}
    {t pn : String} (key q : String) (h : pn ∈ depsGet deps t) :
    pn ∈ depsGet (depsAdd deps key q) t := by
  rw [depsGet_depsAdd]
  by_cases htk : t = key
  · rw [if_pos htk]; exact List.mem_append_left _ h
  · rw [if_neg htk]; exact h

theorem depsAdd_newOnly {deps : List (String × List String)}
    {key q t pn : String} (h : pn ∈ depsGet (depsAdd deps key q) t) :
    pn ∈ depsGet deps t ∨ pn = q := by
  rw [depsGet_depsAdd] at h
  by_cases htk : t = key
  · rw [if_pos htk] at h
    rcases List.mem_append.mp h with h1 | h1
    · exact .inl h1
    · exact .inr (List.mem_singleton.mp h1)
  · rw [if_neg htk] at h
    exact .inl h

theorem setInsert_of_not_mem {l : List String} {x : String}
    (h : x ∉ l) : setInsert l x = l ++ [x] := by
  rw [setInsert, if_neg]
  intro hc
  exact h ((scontains_iff l x).mp hc)

/-! ## Claim C1: the first scan phase of check_types_no_loops -/

theorem scanMembers_cons (resolved : List String) (pname : String)
    (m : Element) (rest : List Element) (ab : Bool)
    (deps : List (String × List String)) :
    scanMembers resolved pname (m :: rest) ab deps =
      if !is_builtin_type (elementTypeName m.kind) &&
          !resolved.contains (elementTypeName m.kind) then
        scanMembers resolved pname rest false
          (depsAdd deps (elementTypeName m.kind) pname)
      else
        scanMembers resolved pname rest ab deps := rfl

theorem scanMembers_spec (resolved : List String) (pname : String) :
    ∀ (elems : List Element) (ab : Bool)
      (deps : List (String × List String)),
      (∀ t pn, pn ∈ depsGet deps t →
        pn ∈ depsGet (scanMembers resolved pname elems ab deps).2 t) ∧
      (∀ t pn, pn ∈ depsGet (scanMembers resolved pname elems ab deps).2 t →
        pn ∈ depsGet deps t ∨ pn = pname) ∧
      ((scanMembers resolved pname elems ab deps).1 = true ↔
        (ab = true ∧ ∀ m ∈ elems,
          is_builtin_type (elementTypeName m.kind) = true ∨
          elementTypeName m.kind ∈ resolved)) ∧
      (∀ m ∈ elems,
        is_builtin_type (elementTypeName m.kind) = true ∨
        elementTypeName m.kind ∈ resolved ∨
        pname ∈ depsGet (scanMembers resolved pname elems ab deps).2
          (elementTypeName m.kind)) := by
  intro elems
  induction elems with
  | nil =>
    intro ab deps
    refine ⟨fun t pn h => h, fun t pn h => .inl h, ?_, ?_⟩
    · constructor
      · intro h
        exact ⟨h, fun m hm => absurd hm (List.not_mem_nil m)⟩
      · intro h
        exact h.1
    · intro m hm
      exact absurd hm (List.not_mem_nil m)
  | cons m rest ih =>
    intro ab deps
    rw [scanMembers_cons]
    by_cases hcond : (!is_builtin_type (elementTypeName m.kind) &&
        !resolved.contains (elementTypeName m.kind)) = true
    · rw [if_pos hcond]
      have hb : is_builtin_type (elementTypeName m.kind) = false := by
        have := (Bool.and_eq_true _ _).mp hcond
        simpa using this.1
      have hc : elementTypeName m.kind ∉ resolved := by
        have := (Bool.and_eq_true _ _).mp hcond
        intro hmem
        have hcc := (scontains_iff resolved _).mpr hmem
        rw [hcc] at this
        simpa using this.2
      obtain ⟨ih1, ih2, ih3, ih4⟩ :=
        ih false (depsAdd deps (elementTypeName m.kind) pname)
      refine ⟨?_, ?_, ?_, ?_⟩
      · intro t pn h
        exact ih1 t pn (depsAdd_mono _ _ h)
      · intro t pn h
        rcases ih2 t pn h with h1 | h1
        · exact depsAdd_newOnly h1
        · exact .inr h1
      · constructor
        · intro h
          obtain ⟨hfalse, _⟩ := ih3.mp h
          exact Bool.noConfusion hfalse
        · rintro ⟨_, hall⟩
          rcases hall m (List.mem_cons_self m rest) with h1 | h1
          · rw [hb] at h1; exact Bool.noConfusion h1
          · exact absurd h1 hc
      · intro m' hm'
        rcases List.mem_cons.mp hm' with h1 | h1
        · subst h1
          exact .inr (.inr (ih1 _ _ (depsAdd_mem_self deps _ pname)))
        · exact ih4 m' h1
    · rw [if_neg hcond]
      have hbc : is_builtin_type (elementTypeName m.kind) = true ∨
          elementTypeName m.kind ∈ resolved := by
        by_cases hb : is_builtin_type (elementTypeName m.kind) = true
        · exact .inl hb
        · right
          by_cases hcc : (resolved.contains (elementTypeName m.kind)) = true
          · exact (scontains_iff resolved _).mp hcc
          · exfalso
            apply hcond
            rw [Bool.and_eq_true]
            constructor
            · simpa using hb
            · simpa using hcc
      obtain ⟨ih1, ih2, ih3, ih4⟩ := ih ab deps
      refine ⟨ih1, ih2, ?_, ?_⟩
      · rw [ih3]
        constructor
        · rintro ⟨hab, hall⟩
          refine ⟨hab, ?_⟩
          intro m' hm'
          rcases List.mem_cons.mp hm' with h1 | h1
          · subst h1; exact hbc
          · exact hall m' h1
        · rintro ⟨hab, hall⟩
          exact ⟨hab, fun m' hm' => hall m' (List.mem_cons_of_mem m hm')⟩
      · intro m' hm'
        rcases List.mem_cons.mp hm' with h1 | h1
        · subst h1
          rcases hbc with h2 | h2
          · exact .inl h2
          · exact .inr (.inl h2)
        · exact ih4 m' h1

theorem scanStructs_cons (k : StructDefn) (rest : List StructDefn)
    (resolved : List String) (deps : List (String × List String))
    (stack : List String) :
    scanStructs (k :: rest) resolved deps stack =
      if (scanMembers resolved k.name k.elements true deps).1 then
        scanStructs rest (setInsert resolved k.name)
          (scanMembers resolved k.name k.elements true deps).2
          (k.name :: stack)
      else
        scanStructs rest resolved
          (scanMembers resolved k.name k.elements true deps).2 stack := rfl

theorem nodup_middle_not_mem {P rest : List StructDefn} {k : StructDefn}
    (hnd : ((P ++ k :: rest).map StructDefn.name).Nodup) :
    k.name ∉ P.map StructDefn.name := by
  rw [List.map_append, List.nodup_append] at hnd
  intro hmem
  exact hnd.2.2 hmem (by rw [List.map_cons]; exact List.mem_cons_self _ _)

theorem scanStructs_spec (types_map : List StructDefn)
    (hnd : (types_map.map StructDefn.name).Nodup) :
    ∀ (todo P : List StructDefn) (R : List String)
      (D : List (String × List String)) (K : List String),
      types_map = P ++ todo →
      ScanInv types_map P R D K →
      ScanInv types_map types_map
        (scanStructs todo R D K).1
        (scanStructs todo R D K).2.1
        (scanStructs todo R D K).2.2 := by
  intro todo
  induction todo with
  | nil =>
    intro P R D K heq hinv
    rw [List.append_nil] at heq
    subst heq
    exact hinv
  | cons k rest ih =>
    intro P R D K heq hinv
    have hkmem : k ∈ types_map := by
      rw [heq]; exact List.mem_append_right P (List.mem_cons_self k rest)
    have hknotP : k.name ∉ P.map StructDefn.name := by
      rw [heq] at hnd
      exact nodup_middle_not_mem hnd
    have hkR : k.name ∉ R := fun h => hknotP (hinv.memR _ h)
    have heq' : types_map = (P ++ [k]) ++ rest := by
      rw [heq, List.append_assoc, List.singleton_append]
    obtain ⟨sm1, sm2, sm3, sm4⟩ :=
      scanMembers_spec R k.name k.elements true D
    rw [scanStructs_cons]
    by_cases hab : (scanMembers R k.name k.elements true D).1 = true
    · rw [if_pos hab]
      have hall : ∀ m ∈ k.elements,
          is_builtin_type (elementTypeName m.kind) = true ∨
          elementTypeName m.kind ∈ R := (sm3.mp hab).2
      have hins : setInsert R k.name = R ++ [k.name] :=
        setInsert_of_not_mem hkR
      apply ih (P ++ [k]) _ _ _ heq'
      refine ⟨?_, ?_, ?_, ?_, ?_, ?_, ?_, ?_⟩
      ·
        rw [hins, List.nodup_append]
        refine ⟨hinv.nodupR, List.nodup_singleton _, ?_⟩
        intro a haR hak
        rw [List.mem_singleton] at hak
        subst hak
        exact hkR haR
      ·
        intro r hr
        rw [hins] at hr
        rw [List.map_append, List.map_cons]
        rcases List.mem_append.mp hr with h1 | h1
        · exact List.mem_append_left _ (hinv.memR r h1)
        · rw [List.mem_singleton] at h1
          subst h1
          exact List.mem_append_right _ (List.mem_cons_self _ _)
      ·
        intro r hr
        rw [hins] at hr
        rcases List.mem_append.mp hr with h1 | h1
        · exact hinv.groundR r h1
        · rw [List.mem_singleton] at h1
          subst h1
          refine Grounded.mk k hkmem ?_
          intro m hm hbf
          rcases hall m hm with h2 | h2
          · rw [hbf] at h2; exact Bool.noConfusion h2
          · exact hinv.groundR _ h2
      ·
        intro t
        rw [hins, List.mem_cons, List.mem_append, List.mem_singleton,
          hinv.stackIff t]
        tauto
      ·
        rw [hins, List.length_cons, List.length_append, List.length_singleton,
          hinv.stackLen]
      ·
        intro s hs m hm
        rcases List.mem_append.mp hs with h1 | h1
        · rcases hinv.depFact s h1 m hm with h2 | h2 | h2
          · exact .inl h2
          · refine .inr (.inl ?_)
            rw [hins]
            exact List.mem_append_left _ h2
          · exact .inr (.inr (sm1 _ _ h2))
        · rw [List.mem_singleton] at h1
          subst h1
          rcases sm4 m hm with h2 | h2 | h2
          · exact .inl h2
          · refine .inr (.inl ?_)
            rw [hins]
            exact List.mem_append_left _ h2
          · exact .inr (.inr h2)
      ·
        intro s hs hnotin har
        rcases List.mem_append.mp hs with h1 | h1
        · have hsR : s.name ∉ R := by
            intro hc
            apply hnotin
            rw [hins]
            exact List.mem_append_left _ hc
          by_cases harR : allRefsResolved R s = true
          · obtain ⟨t, htK, hdep⟩ := hinv.pending s h1 hsR harR
            exact ⟨t, List.mem_cons_of_mem _ htK, sm1 _ _ hdep⟩
          · have harF : allRefsResolved R s = false := by
              simpa using harR
            obtain ⟨m, hm, hbf, hnr⟩ := allRefsResolved_false harF
            have hrk : elementTypeName m.kind = k.name := by
              rcases (allRefsResolved_iff _ s).mp har m hm with h2 | h2
              · rw [hbf] at h2; exact Bool.noConfusion h2
              · rw [hins] at h2
                rcases List.mem_append.mp h2 with h3 | h3
                · exact absurd h3 hnr
                · exact List.mem_singleton.mp h3
            rcases hinv.depFact s h1 m hm with h2 | h2 | h2
            · rw [hbf] at h2; exact Bool.noConfusion h2
            · exact absurd h2 hnr
            · refine ⟨k.name, List.mem_cons_self _ _, ?_⟩
              have h3 := sm1 _ _ h2
              rw [hrk] at h3
              exact h3
        · rw [List.mem_singleton] at h1
          subst h1
          exfalso
          apply hnotin
          rw [hins]
          exact List.mem_append_right _ (List.mem_cons_self _ _)
      ·
        intro t pn h
        rcases sm2 t pn h with h1 | h1
        · exact hinv.parentsFact t pn h1
        · exact ⟨k, hkmem, h1.symm⟩
    · rw [if_neg hab]
      apply ih (P ++ [k]) _ _ _ heq'
      refine ⟨?_, ?_, ?_, ?_, ?_, ?_, ?_, ?_⟩
      · exact hinv.nodupR
      ·
        intro r hr
        rw [List.map_append]
        exact List.mem_append_left _ (hinv.memR r hr)
      · exact hinv.groundR
      · exact hinv.stackIff
      · exact hinv.stackLen
      ·
        intro s hs m hm
        rcases List.mem_append.mp hs with h1 | h1
        · rcases hinv.depFact s h1 m hm with h2 | h2 | h2
          · exact .inl h2
          · exact .inr (.inl h2)
          · exact .inr (.inr (sm1 _ _ h2))
        · rw [List.mem_singleton] at h1
          subst h1
          rcases sm4 m hm with h2 | h2 | h2
          · exact .inl h2
          · exact .inr (.inl h2)
          · exact .inr (.inr h2)
      ·
        intro s hs hnotin har
        rcases List.mem_append.mp hs with h1 | h1
        · obtain ⟨t, htK, hdep⟩ := hinv.pending s h1 hnotin har
          exact ⟨t, htK, sm1 _ _ hdep⟩
        · rw [List.mem_singleton] at h1
          subst h1
          exfalso
          have hcontra : ¬ (true = true ∧ ∀ m ∈ s.elements,
              is_builtin_type (elementTypeName m.kind) = true ∨
              elementTypeName m.kind ∈ R) := fun hcc => hab (sm3.mpr hcc)
          apply hcontra
          refine ⟨rfl, ?_⟩
          intro m hm
          exact (allRefsResolved_iff _ s).mp har m hm
      ·
        intro t pn h
        rcases sm2 t pn h with h1 | h1
        · exact hinv.parentsFact t pn h1
        · exact ⟨k, hkmem, h1.symm⟩

/-! ## Claim C1: the drain phase of check_types_no_loops -/

theorem drainParents_cons (types_map : List StructDefn) (parent : String)
    (rest R K : List String) :
    drainParents types_map (parent :: rest) R K =
      match mapGet types_map parent with
      | none => none
      | some p =>
        if allRefsResolved R p && !R.contains p.name then
          drainParents types_map rest (R ++ [p.name]) (p.name :: K)
        else
          drainParents types_map rest R K := rfl

theorem drainParents_spec (types_map : List StructDefn)
    (hnd : (types_map.map StructDefn.name).Nodup) :
    ∀ (parents R K : List String),
      (∀ pn ∈ parents, ∃ s ∈ types_map, s.name = pn) →
      R.Nodup →
      (∀ r ∈ R, r ∈ types_map.map StructDefn.name) →
      (∀ r ∈ R, Grounded types_map r) →
      ∃ R' K', drainParents types_map parents R K = some (R', K') ∧
        R'.Nodup ∧
        (∀ r ∈ R', r ∈ types_map.map StructDefn.name) ∧
        (∀ r ∈ R', Grounded types_map r) ∧
        (∀ r ∈ R, r ∈ R') ∧
        (∀ t, t ∈ K' ↔ (t ∈ K ∨ (t ∈ R' ∧ t ∉ R))) ∧
        K'.length + R.length = K.length + R'.length ∧
        (∀ s ∈ types_map, s.name ∈ parents →
          allRefsResolved R s = true → s.name ∈ R') := by
  intro parents
  induction parents with
  | nil =>
    intro R K _ hndR hmemR hgrR
    refine ⟨R, K, rfl, hndR, hmemR, hgrR, fun r h => h, ?_, rfl, ?_⟩
    · intro t
      constructor
      · exact fun h => .inl h
      · rintro (h | ⟨h1, h2⟩)
        · exact h
        · exact absurd h1 h2
    · intro s _ hin _
      exact absurd hin (List.not_mem_nil _)
  | cons parent rest ih =>
    intro R K hpf hndR hmemR hgrR
    obtain ⟨p0, hp0mem, hp0name⟩ := hpf parent (List.mem_cons_self _ _)
    have hget : mapGet types_map parent = some p0 := by
      rw [← hp0name]
      exact mapGet_eq_of_mem hnd hp0mem
    rw [drainParents_cons]
    simp only [hget]
    by_cases hguard : (allRefsResolved R p0 && !R.contains p0.name) = true
    · rw [if_pos hguard]
      have hall : allRefsResolved R p0 = true :=
        ((Bool.and_eq_true _ _).mp hguard).1
      have hnotin : p0.name ∉ R := by
        have h2 := ((Bool.and_eq_true _ _).mp hguard).2
        intro hc
        have hcc := (scontains_iff R _).mpr hc
        rw [hcc] at h2
        exact Bool.noConfusion h2
      obtain ⟨R', K', heq, h1, h2, h3, h4, h5, h6, h7⟩ :=
        ih (R ++ [p0.name]) (p0.name :: K)
          (fun pn hpn => hpf pn (List.mem_cons_of_mem _ hpn))
          (by
            rw [List.nodup_append]
            refine ⟨hndR, List.nodup_singleton _, ?_⟩
            intro a haR hap
            rw [List.mem_singleton] at hap
            subst hap
            exact hnotin haR)
          (by
            intro r hr
            rcases List.mem_append.mp hr with hh | hh
            · exact hmemR r hh
            · rw [List.mem_singleton] at hh
              subst hh
              exact List.mem_map.mpr ⟨p0, hp0mem, rfl⟩)
          (by
            intro r hr
            rcases List.mem_append.mp hr with hh | hh
            · exact hgrR r hh
            · rw [List.mem_singleton] at hh
              subst hh
              refine Grounded.mk p0 hp0mem ?_
              intro m hm hbf
              rcases (allRefsResolved_iff _ p0).mp hall m hm with hx | hx
              · rw [hbf] at hx; exact Bool.noConfusion hx
              · exact hgrR _ hx)
      refine ⟨R', K', heq, h1, h2, h3,
        fun r hr => h4 r (List.mem_append_left _ hr), ?_, ?_, ?_⟩
      · intro t
        rw [h5 t]
        constructor
        · rintro (ht | ⟨ht1, ht2⟩)
          · rcases List.mem_cons.mp ht with hh | hh
            · subst hh
              exact .inr ⟨h4 _ (List.mem_append_right _
                (List.mem_singleton.mpr rfl)), hnotin⟩
            · exact .inl hh
          · refine .inr ⟨ht1, fun hc => ht2 (List.mem_append_left _ hc)⟩
        · rintro (ht | ⟨ht1, ht2⟩)
          · exact .inl (List.mem_cons_of_mem _ ht)
          · by_cases htp : t = p0.name
            · subst htp
              exact .inl (List.mem_cons_self _ _)
            · refine .inr ⟨ht1, ?_⟩
              intro hc
              rcases List.mem_append.mp hc with hh | hh
              · exact ht2 hh
              · exact htp (List.mem_singleton.mp hh)
      · rw [List.length_append, List.length_singleton] at h6
        rw [List.length_cons] at h6
        omega
      · intro s hs hsp har
        rcases List.mem_cons.mp hsp with hh | hh
        · have : s.name = p0.name := by rw [hh, hp0name]
          rw [this]
          exact h4 _ (List.mem_append_right _ (List.mem_singleton.mpr rfl))
        · exact h7 s hs hh
            (allRefsResolved_mono (fun r hr => List.mem_append_left _ hr) har)
    · rw [if_neg hguard]
      obtain ⟨R', K', heq, h1, h2, h3, h4, h5, h6, h7⟩ :=
        ih R K (fun pn hpn => hpf pn (List.mem_cons_of_mem _ hpn))
          hndR hmemR hgrR
      refine ⟨R', K', heq, h1, h2, h3, h4, h5, h6, ?_⟩
      intro s hs hsp har
      rcases List.mem_cons.mp hsp with hh | hh
      · have hsp0 : s = p0 := struct_name_inj hnd hs hp0mem
          (by rw [hh, hp0name])
        have hcont : p0.name ∈ R := by
          by_cases hc : (R.contains p0.name) = true
          · exact (scontains_iff _ _).mp hc
          · exfalso
            apply hguard
            rw [Bool.and_eq_true]
            constructor
            · rw [← hsp0]; exact har
            · have hcf : R.contains p0.name = false := by simpa using hc
              rw [hcf]
              rfl
        rw [hsp0]
        exact h4 _ hcont
      · exact h7 s hs hh har

theorem drain_cons (types_map : List StructDefn)
    (deps : List (String × List String)) (f : Nat) (R : List String)
    (kind_name : String) (rest : List String) :
    drain types_map deps (f + 1) R (kind_name :: rest) =
      match drainParents types_map (depsGet deps kind_name) R rest with
      | none => none
      | some (R2, K2) => drain types_map deps f R2 K2 := rfl

theorem drain_go (types_map : List StructDefn)
    (deps : List (String × List String)) (R0 : List String)
    (hnd : (types_map.map StructDefn.name).Nodup)
    (hdf : ∀ s ∈ types_map, ∀ m ∈ s.elements,
      is_builtin_type (elementTypeName m.kind) = true ∨
      elementTypeName m.kind ∈ R0 ∨
      s.name ∈ depsGet deps (elementTypeName m.kind))
    (hpf : ∀ t pn, pn ∈ depsGet deps t → ∃ s ∈ types_map, s.name = pn) :
    ∀ fuel R K,
      R.Nodup →
      (∀ r ∈ R, r ∈ types_map.map StructDefn.name) →
      (∀ r ∈ R0, r ∈ R) →
      (∀ r ∈ R, Grounded types_map r) →
      (∀ s ∈ types_map, s.name ∉ R → allRefsResolved R s = true →
        ∃ t ∈ K, s.name ∈ depsGet deps t) →
      K.length + types_map.length < fuel + R.length →
      ∃ RF, drain types_map deps fuel R K = some RF ∧
        (∀ r ∈ R, r ∈ RF) ∧
        (∀ r ∈ RF, Grounded types_map r) ∧
        (∀ s ∈ types_map, allRefsResolved RF s = true → s.name ∈ RF) := by
  intro fuel
  induction fuel with
  | zero =>
    intro R K hndR hmemR _ _ _ hlt
    exfalso
    have hle : R.length ≤ (types_map.map StructDefn.name).length :=
      (List.subperm_of_subset hndR hmemR).length_le
    rw [List.length_map] at hle
    omega
  | succ f ih =>
    intro R K hndR hmemR hR0 hgrR hpend hlt
    cases K with
    | nil =>
      refine ⟨R, rfl, fun r h => h, hgrR, ?_⟩
      intro s hs har
      by_cases hin : s.name ∈ R
      · exact hin
      · obtain ⟨t, ht, _⟩ := hpend s hs hin har
        exact absurd ht (List.not_mem_nil t)
    | cons kind_name rest =>
      obtain ⟨R', K', hdp, hnd', hmem', hgr', hsub', hstk', hlen', helig'⟩ :=
        drainParents_spec types_map hnd (depsGet deps kind_name) R rest
          (fun pn hpn => hpf kind_name pn hpn) hndR hmemR hgrR
      have hpend' : ∀ s ∈ types_map, s.name ∉ R' →
          allRefsResolved R' s = true →
          ∃ t ∈ K', s.name ∈ depsGet deps t := by
        intro s hs hnin har'
        by_cases har : allRefsResolved R s = true
        · have hninR : s.name ∉ R := fun h => hnin (hsub' _ h)
          obtain ⟨t, htK, hdep⟩ := hpend s hs hninR har
          rcases List.mem_cons.mp htK with h1 | h1
          · exfalso
            apply hnin
            apply helig' s hs _ har
            rw [← h1]
            exact hdep
          · exact ⟨t, (hstk' t).mpr (.inl h1), hdep⟩
        · have harF : allRefsResolved R s = false := by simpa using har
          obtain ⟨m, hm, hbf, hnr⟩ := allRefsResolved_false harF
          have hrR' : elementTypeName m.kind ∈ R' := by
            rcases (allRefsResolved_iff _ s).mp har' m hm with h2 | h2
            · rw [hbf] at h2; exact Bool.noConfusion h2
            · exact h2
          have hrnotR0 : elementTypeName m.kind ∉ R0 :=
            fun h => hnr (hR0 _ h)
          rcases hdf s hs m hm with h2 | h2 | h2
          · rw [hbf] at h2; exact Bool.noConfusion h2
          · exact absurd h2 hrnotR0
          · exact ⟨elementTypeName m.kind,
              (hstk' _).mpr (.inr ⟨hrR', hnr⟩), h2⟩
      have hR0' : ∀ r ∈ R0, r ∈ R' := fun r h => hsub' r (hR0 r h)
      have hlt' : K'.length + types_map.length < f + R'.length := by
        rw [List.length_cons] at hlt
        omega
      obtain ⟨RF, hdr, hsubF, hgrF, hsatF⟩ :=
        ih R' K' hnd' hmem' hR0' hgr' hpend' hlt'
      refine ⟨RF, ?_, fun r h => hsubF r (hsub' r h), hgrF, hsatF⟩
      rw [drain_cons]
      simp only [hdp]
      exact hdr

/-! ## Claim C1: check_types_no_loops succeeds iff every struct is
grounded -/

theorem grounded_mem_of_saturated {types_map : List StructDefn}
    {RF : List String}
    (sat : ∀ s ∈ types_map, allRefsResolved RF s = true → s.name ∈ RF) :
    ∀ nm, Grounded types_map nm → nm ∈ RF := by
  intro nm h
  induction h with
  | mk s hs _ ih =>
    apply sat s hs
    rw [allRefsResolved_iff]
    intro m hm
    by_cases hb : is_builtin_type (elementTypeName m.kind) = true
    · exact .inl hb
    · exact .inr (ih m hm (by simpa using hb))

theorem check_types_no_loops_eq (types_map : List StructDefn) :
    check_types_no_loops types_map =
      match drain types_map (scanStructs types_map [] [] []).2.1
          ((scanStructs types_map [] [] []).2.2.length +
            types_map.length + 1)
          (scanStructs types_map [] [] []).1
          (scanStructs types_map [] [] []).2.2 with
      | none => none
      | some resolvedF =>
        if ((types_map.filter
            (fun kind => !resolvedF.contains kind.name)).map
            (fun kind => kind.name)).isEmpty then
          some (.ok ())
        else
          some (.error ⟨(types_map.filter
              (fun kind => !resolvedF.contains kind.name)).foldl
              (fun acc kind =>
                if kind.line_no < acc then kind.line_no else acc)
              usizeMax,
            .RecursiveTypes ((types_map.filter
              (fun kind => !resolvedF.contains kind.name)).map
              (fun kind => kind.name))⟩) := rfl

theorem check_types_no_loops_spec (types_map : List StructDefn)
    (hnd : (types_map.map StructDefn.name).Nodup) :
    ∃ res, check_types_no_loops types_map = some res ∧
      (res = .ok () ↔ ∀ s ∈ types_map, Grounded types_map s.name) := by
  have hinv0 : ScanInv types_map [] [] [] [] := by
    refine ⟨List.nodup_nil, ?_, ?_, ?_, rfl, ?_, ?_, ?_⟩
    · intro r hr; exact absurd hr (List.not_mem_nil r)
    · intro r hr; exact absurd hr (List.not_mem_nil r)
    · intro t; simp
    · intro s hs; exact absurd hs (List.not_mem_nil s)
    · intro s hs; exact absurd hs (List.not_mem_nil s)
    · intro t pn hpn
      rw [depsGet_nil] at hpn
      exact absurd hpn (List.not_mem_nil pn)
  have hscan := scanStructs_spec types_map hnd types_map [] [] [] []
    (List.nil_append types_map).symm hinv0
  rcases hres : scanStructs types_map [] [] [] with ⟨R0, D0, K0⟩
  simp only [hres] at hscan
  obtain ⟨RF, hdr, hsubF, hgrF, hsatF⟩ :=
    drain_go types_map D0 R0 hnd hscan.depFact hscan.parentsFact
      (K0.length + types_map.length + 1) R0 K0
      hscan.nodupR hscan.memR (fun r h => h) hscan.groundR hscan.pending
      (by omega)
  rw [check_types_no_loops_eq]
  simp only [hres, hdr]
  by_cases hemp : ((types_map.filter
      (fun kind => !RF.contains kind.name)).map
      (fun kind => kind.name)).isEmpty = true
  · rw [if_pos hemp]
    refine ⟨.ok (), rfl, ?_⟩
    constructor
    · intro _
      rw [List.isEmpty_iff, List.map_eq_nil_iff, List.filter_eq_nil_iff] at hemp
      intro s hs
      have hcont : RF.contains s.name = true := by
        have := hemp s hs
        simpa using this
      exact hgrF s.name ((scontains_iff RF s.name).mp hcont)
    · intro _
      rfl
  · rw [if_neg hemp]
    refine ⟨.error _, rfl, ?_⟩
    constructor
    · intro h
      exact Except.noConfusion h
    · intro hall
      exfalso
      apply hemp
      rw [List.isEmpty_iff, List.map_eq_nil_iff, List.filter_eq_nil_iff]
      intro s hs
      have hmem : s.name ∈ RF :=
        grounded_mem_of_saturated hsatF s.name (hall s hs)
      have hcont : RF.contains s.name = true :=
        (scontains_iff RF s.name).mpr hmem
      rw [hcont]
      simp

/-! ## Claim C1: build_structs_map and check_all_types_defined -/

theorem build_structs_map_go_ok :
    ∀ (rest acc m : List StructDefn),
      (acc.map StructDefn.name).Nodup →
      build_structs_map_go acc rest = .ok m →
      m = acc ++ rest ∧ ((acc ++ rest).map StructDefn.name).Nodup := by
  intro rest
  induction rest with
  | nil =>
    intro acc m hacc h
    simp only [build_structs_map_go] at h
    injection h with h1
    subst h1
    rw [List.append_nil]
    exact ⟨rfl, hacc⟩
  | cons kind rest2 ih =>
    intro acc m hacc h
    simp only [build_structs_map_go] at h
    by_cases hc : mapContains acc kind.name = true
    · rw [if_pos hc] at h
      exact Except.noConfusion h
    · rw [if_neg hc] at h
      have hnin : kind.name ∉ acc.map StructDefn.name := by
        intro hmem
        apply hc
        rw [mapContains_iff]
        obtain ⟨s, hs, hsn⟩ := List.mem_map.mp hmem
        exact ⟨s, hs, hsn⟩
      have hacc' : ((acc ++ [kind]).map StructDefn.name).Nodup := by
        rw [List.map_append, List.nodup_append]
        refine ⟨hacc, by simp, ?_⟩
        intro a ha hak
        rw [List.map_cons, List.map_nil, List.mem_singleton] at hak
        subst hak
        exact hnin ha
      obtain ⟨h1, h2⟩ := ih (acc ++ [kind]) m hacc' h
      rw [List.append_assoc, List.singleton_append] at h1 h2
      exact ⟨h1, h2⟩

theorem build_structs_map_go_complete :
    ∀ (rest acc : List StructDefn),
      ((acc ++ rest).map StructDefn.name).Nodup →
      build_structs_map_go acc rest = .ok (acc ++ rest) := by
  intro rest
  induction rest with
  | nil =>
    intro acc _
    rw [List.append_nil]
    rfl
  | cons kind rest2 ih =>
    intro acc hnd
    simp only [build_structs_map_go]
    have hnin : ¬ mapContains acc kind.name = true := by
      rw [mapContains_iff]
      rintro ⟨s, hs, hsn⟩
      have hmem : kind.name ∈ acc.map StructDefn.name :=
        List.mem_map.mpr ⟨s, hs, hsn⟩
      exact nodup_middle_not_mem hnd hmem
    rw [if_neg hnin]
    have hnd' : (((acc ++ [kind]) ++ rest2).map StructDefn.name).Nodup := by
      rw [List.append_assoc, List.singleton_append]
      exact hnd
    rw [ih (acc ++ [kind]) hnd', List.append_assoc, List.singleton_append]

theorem check_members_defined_ok (tm : List StructDefn) :
    ∀ l : List Element, check_members_defined tm l = .ok () ↔
      ∀ m ∈ l, is_builtin_type (elementTypeName m.kind) = true ∨
        (mapGet tm (elementTypeName m.kind)).isSome = true := by
  intro l
  induction l with
  | nil =>
    constructor
    · intro _ m hm
      exact absurd hm (List.not_mem_nil m)
    · intro _
      rfl
  | cons member rest ih =>
    simp only [check_members_defined]
    by_cases hc : (!is_builtin_type (elementTypeName member.kind) &&
        (mapGet tm (elementTypeName member.kind)).isNone) = true
    · rw [if_pos hc]
      constructor
      · intro h
        exact Except.noConfusion h
      · intro hall
        exfalso
        obtain ⟨h1, h2⟩ := (Bool.and_eq_true _ _).mp hc
        rcases hall member (List.mem_cons_self _ _) with h3 | h3
        · rw [h3] at h1
          exact Bool.noConfusion h1
        · rw [Option.isNone_iff_eq_none] at h2
          rw [h2] at h3
          exact Bool.noConfusion h3
    · rw [if_neg hc]
      rw [ih]
      constructor
      · intro hall m hm
        rcases List.mem_cons.mp hm with h1 | h1
        · subst h1
          cases hmg : mapGet tm (elementTypeName m.kind) with
          | some p =>
            right
            rfl
          | none =>
            left
            by_cases hb : is_builtin_type (elementTypeName m.kind) = true
            · exact hb
            · exfalso
              apply hc
              rw [Bool.and_eq_true]
              refine ⟨by simpa using hb, by rw [hmg]; rfl⟩
        · exact hall m h1
      · intro hall m hm
        exact hall m (List.mem_cons_of_mem _ hm)

theorem check_all_types_defined_go_ok (tm : List StructDefn) :
    ∀ l : List StructDefn, check_all_types_defined_go tm l = .ok () ↔
      ∀ s ∈ l, check_members_defined tm s.elements = .ok () := by
  intro l
  induction l with
  | nil =>
    constructor
    · intro _ s hs
      exact absurd hs (List.not_mem_nil s)
    · intro _
      rfl
  | cons kind rest ih =>
    simp only [check_all_types_defined_go]
    cases hm : check_members_defined tm kind.elements with
    | error e =>
      constructor
      · intro h
        exact Except.noConfusion h
      · intro hall
        have hk2 := hall kind (List.mem_cons_self _ _)
        rw [hm] at hk2
        exact Except.noConfusion hk2
    | ok u =>
      cases u
      rw [ih]
      constructor
      · intro hall s hs
        rcases List.mem_cons.mp hs with h1 | h1
        · subst h1
          exact hm
        · exact hall s h1
      · intro hall s hs
        exact hall s (List.mem_cons_of_mem _ hs)

/-! ## Claim C1: the correctness pass -/

theorem scanForLen_ok (id : String) :
    ∀ l : List Element, scanForLen id l = .ok () ↔
      ∃ e, l.find? (fun x => x.name == id) = some e ∧ integerLenElem e := by
  intro l
  induction l with
  | nil =>
    simp only [scanForLen]
    constructor
    · intro h
      exact Except.noConfusion h
    · rintro ⟨e, he, _⟩
      rw [List.find?_nil] at he
      exact Option.noConfusion he
  | cons e rest ih =>
    by_cases hn : (e.name == id) = true
    · simp only [scanForLen, hn, if_true]
      cases hk : e.kind with
      | TypeName tn =>
        simp only [hk]
        by_cases hint : is_type_class tn .Integer = true
        · rw [if_pos hint]
          constructor
          · intro _
            refine ⟨e, ?_, tn, hk, hint⟩
            rw [List.find?_cons]
            simp only [hn]
          · intro _
            rfl
        · rw [if_neg hint]
          constructor
          · intro h
            exact Except.noConfusion h
          · rintro ⟨e', he', tn', hk', hint'⟩
            rw [List.find?_cons] at he'
            simp only [hn] at he'
            injection he' with he2
            subst he2
            rw [hk] at hk'
            injection hk' with htn
            subst htn
            exact absurd hint' hint
      | ArrayElem ad =>
        simp only [hk]
        constructor
        · intro h
          exact Except.noConfusion h
        · rintro ⟨e', he', tn', hk', _⟩
          rw [List.find?_cons] at he'
          simp only [hn] at he'
          injection he' with he2
          subst he2
          rw [hk] at hk'
          exact ElementTypeRef.noConfusion hk'
    · have hnf : (e.name == id) = false := by simpa using hn
      simp only [scanForLen, hnf, Bool.false_eq_true, if_false]
      rw [ih]
      constructor
      · rintro ⟨e', he', hP⟩
        refine ⟨e', ?_, hP⟩
        rw [List.find?_cons]
        simp only [hnf]
        exact he'
      · rintro ⟨e', he', hP⟩
        rw [List.find?_cons] at he'
        simp only [hnf] at he'
        exact ⟨e', he', hP⟩

theorem check_struct_arrays_ok (s : StructDefn) :
    ∀ (l : List Element) (i : Nat),
      check_struct_arrays s i l = .ok () ↔
      ∀ j el arr id, l.get? j = some el → el.kind = .ArrayElem arr →
        arr.length = .Identifier id →
        scanForLen id (s.elements.take (i + j)) = .ok () := by
  intro l
  induction l with
  | nil =>
    intro i
    simp only [check_struct_arrays]
    constructor
    · intro _ j el arr id hel _ _
      rw [List.get?_nil] at hel
      exact Option.noConfusion hel
    · intro _
      trivial
  | cons e rest ih =>
    intro i
    cases hk : e.kind with
    | ArrayElem arr0 =>
      cases hlen : arr0.length with
      | Static n =>
        simp only [check_struct_arrays, hk, check_array_elem, hlen]
        rw [ih (i + 1)]
        constructor
        · intro hrest j el arr id hel hkel hlenel
          cases j with
          | zero =>
            injection hel with hel2
            subst hel2
            rw [hk] at hkel
            injection hkel with harr
            subst harr
            rw [hlen] at hlenel
            exact ArrayLen.noConfusion hlenel
          | succ j2 =>
            have heq2 : i + (j2 + 1) = (i + 1) + j2 := by omega
            rw [heq2]
            exact hrest j2 el arr id hel hkel hlenel
        · intro hall j el arr id hel hkel hlenel
          have heq2 : (i + 1) + j = i + (j + 1) := by omega
          rw [heq2]
          exact hall (j + 1) el arr id hel hkel hlenel
      | Identifier id0 =>
        cases hscan : scanForLen id0 (s.elements.take i) with
        | error err =>
          simp only [check_struct_arrays, hk, check_array_elem, hlen, hscan]
          constructor
          · intro h
            exact Except.noConfusion h
          · intro hall
            exfalso
            have h0 := hall 0 e arr0 id0 rfl hk hlen
            rw [Nat.add_zero, hscan] at h0
            exact Except.noConfusion h0
        | ok u =>
          cases u
          simp only [check_struct_arrays, hk, check_array_elem, hlen, hscan]
          rw [ih (i + 1)]
          constructor
          · intro hrest j el arr id hel hkel hlenel
            cases j with
            | zero =>
              injection hel with hel2
              subst hel2
              rw [hk] at hkel
              injection hkel with harr
              subst harr
              rw [hlen] at hlenel
              injection hlenel with hid
              subst hid
              rw [Nat.add_zero]
              exact hscan
            | succ j2 =>
              have heq2 : i + (j2 + 1) = (i + 1) + j2 := by omega
              rw [heq2]
              exact hrest j2 el arr id hel hkel hlenel
          · intro hall j el arr id hel hkel hlenel
            have heq2 : (i + 1) + j = i + (j + 1) := by omega
            rw [heq2]
            exact hall (j + 1) el arr id hel hkel hlenel
    | TypeName tn =>
      simp only [check_struct_arrays, hk]
      rw [ih (i + 1)]
      constructor
      · intro hrest j el arr id hel hkel hlenel
        cases j with
        | zero =>
          injection hel with hel2
          subst hel2
          rw [hk] at hkel
          exact ElementTypeRef.noConfusion hkel
        | succ j2 =>
          have heq2 : i + (j2 + 1) = (i + 1) + j2 := by omega
          rw [heq2]
          exact hrest j2 el arr id hel hkel hlenel
      · intro hall j el arr id hel hkel hlenel
        have heq2 : (i + 1) + j = i + (j + 1) := by omega
        rw [heq2]
        exact hall (j + 1) el arr id hel hkel hlenel

theorem check_struct_arrays_iff_cond (s : StructDefn) :
    check_struct_arrays s 0 s.elements = .ok () ↔ ArrayLenCond s := by
  rw [check_struct_arrays_ok s s.elements 0]
  constructor
  · intro h i el arr id hel hkel hlenel
    have h2 := h i el arr id hel hkel hlenel
    rw [Nat.zero_add, scanForLen_ok] at h2
    exact h2
  · intro h j el arr id hel hkel hlenel
    rw [Nat.zero_add, scanForLen_ok]
    exact h j el arr id hel hkel hlenel

theorem check_array_lengths_go_ok :
    ∀ l : List StructDefn, check_array_lengths_go l = .ok () ↔
      ∀ s ∈ l, check_struct_arrays s 0 s.elements = .ok () := by
  intro l
  induction l with
  | nil =>
    constructor
    · intro _ s hs
      exact absurd hs (List.not_mem_nil s)
    · intro _
      rfl
  | cons sd rest ih =>
    simp only [check_array_lengths_go]
    cases hcs : check_struct_arrays sd 0 sd.elements with
    | error err =>
      simp only [hcs]
      constructor
      · intro h
        exact Except.noConfusion h
      · intro hall
        have hs2 := hall sd (List.mem_cons_self _ _)
        rw [hcs] at hs2
        exact Except.noConfusion hs2
    | ok u =>
      cases u
      simp only [hcs]
      rw [ih]
      constructor
      · intro hall s hs
        rcases List.mem_cons.mp hs with h1 | h1
        · subst h1
          exact hcs
        · exact hall s h1
      · intro hall s hs
        exact hall s (List.mem_cons_of_mem _ hs)

theorem grounded_name_defined {tm : List StructDefn} {nm : String}
    (h : Grounded tm nm) : ∃ s ∈ tm, s.name = nm := by
  cases h with
  | mk s hs _ => exact ⟨s, hs, rfl⟩

/-! ## Claim C1: assembling the pipeline characterisation -/

theorem grounded_elim {tm : List StructDefn} {nm : String}
    (h : Grounded tm nm) :
    ∃ s ∈ tm, s.name = nm ∧
      ∀ m ∈ s.elements,
        is_builtin_type (elementTypeName m.kind) = false →
        Grounded tm (elementTypeName m.kind) := by
  cases h with
  | mk s hs hmem => exact ⟨s, hs, rfl, hmem⟩

theorem check_schema_ok (ts : TSchema) :
    check_schema ts = .ok () ↔
      (mapContains ts.types "root" = true ∧
       ∀ s ∈ ts.types, ArrayLenCond s) := by
  by_cases hroot : mapContains ts.types "root" = true
  · have hcr : check_root_element ts = .ok () := by
      simp only [check_root_element, hroot, Bool.not_true, Bool.false_eq_true,
        if_false]
    simp only [check_schema, hcr, check_array_lengths]
    rw [check_array_lengths_go_ok]
    constructor
    · intro h
      refine ⟨hroot, ?_⟩
      intro s hs
      rw [← check_struct_arrays_iff_cond]
      exact h s hs
    · rintro ⟨_, h⟩ s hs
      rw [check_struct_arrays_iff_cond]
      exact h s hs
  · have hrf : mapContains ts.types "root" = false := by simpa using hroot
    have hcr : check_root_element ts = .error ⟨0, .MissingRootElement⟩ := by
      simp only [check_root_element, hrf, Bool.not_false, if_true]
    simp only [check_schema, hcr]
    constructor
    · intro h
      exact Except.noConfusion h
    · rintro ⟨hr, _⟩
      rw [hr] at hrf
      exact Bool.noConfusion hrf

theorem type_check_schema_spec (schema : Schema) (ts : TSchema) :
    type_check_schema schema = some (.ok ts) ↔
      (ts = ⟨schema.structs⟩ ∧
       (schema.structs.map StructDefn.name).Nodup ∧
       ∀ s ∈ schema.structs, Grounded schema.structs s.name) := by
  constructor
  · intro htc
    simp only [type_check_schema] at htc
    cases hbm : build_structs_map schema.structs with
    | error e =>
      simp only [hbm] at htc
      rw [Option.some.injEq] at htc
      exact Except.noConfusion htc
    | ok tm =>
      simp only [hbm] at htc
      obtain ⟨htm, hnd⟩ := build_structs_map_go_ok schema.structs [] tm
        (by simp) hbm
      rw [List.nil_append] at htm hnd
      subst htm
      cases hcd : check_all_types_defined schema.structs with
      | error e =>
        simp only [hcd] at htc
        rw [Option.some.injEq] at htc
        exact Except.noConfusion htc
      | ok u =>
        cases u
        simp only [hcd] at htc
        cases hnl : check_types_no_loops schema.structs with
        | none =>
          simp only [hnl] at htc
          exact Option.noConfusion htc
        | some res =>
          cases res with
          | error e =>
            simp only [hnl] at htc
            rw [Option.some.injEq] at htc
            exact Except.noConfusion htc
          | ok u2 =>
            cases u2
            simp only [hnl] at htc
            rw [Option.some.injEq, Except.ok.injEq] at htc
            obtain ⟨res2, hres2, hiff⟩ :=
              check_types_no_loops_spec schema.structs hnd
            rw [hnl] at hres2
            rw [Option.some.injEq] at hres2
            have hok : res2 = .ok () := hres2.symm
            exact ⟨htc.symm, hnd, hiff.mp hok⟩
  · rintro ⟨hts, hnd, hgr⟩
    subst hts
    have hbm : build_structs_map schema.structs = .ok schema.structs := by
      have hgo := build_structs_map_go_complete schema.structs []
        (by rw [List.nil_append]; exact hnd)
      rw [List.nil_append] at hgo
      exact hgo
    have hcd : check_all_types_defined schema.structs = .ok () := by
      rw [check_all_types_defined, check_all_types_defined_go_ok]
      intro s hs
      rw [check_members_defined_ok]
      intro m hm
      by_cases hb : is_builtin_type (elementTypeName m.kind) = true
      · exact .inl hb
      · right
        have hbf : is_builtin_type (elementTypeName m.kind) = false := by
          simpa using hb
        obtain ⟨s2, hs2, hs2n, hmem2⟩ := grounded_elim (hgr s hs)
        have hss : s2 = s := struct_name_inj hnd hs2 hs hs2n
        subst hss
        obtain ⟨s3, hs3, hs3n⟩ :=
          grounded_name_defined (hmem2 m hm hbf)
        have hget : mapGet schema.structs (elementTypeName m.kind) =
            some s3 := by
          rw [← hs3n]
          exact mapGet_eq_of_mem hnd hs3
        rw [hget]
        rfl
    obtain ⟨res, hres, hiff⟩ := check_types_no_loops_spec schema.structs hnd
    have hok : res = .ok () := hiff.mpr hgr
    subst hok
    simp only [type_check_schema, hbm, hcd, hres]

/-! ## Claim C1 -/

/-- Claim C1 (corrected): for every source text that tokenises and
parses successfully, `compile_schema_file` succeeds iff the parsed
struct names are pairwise distinct (omitted by the claim: duplicates
fail with DuplicateType), every struct is grounded (the
struct-embedding graph is a DAG whose leaves are all built-in types),
the struct map contains a key named `root`, and for every ArrayElem
with an `Identifier(id)` length the first preceding sibling named `id`
is a TypeName of a built-in Integer-class type. -/
theorem C1_amended (text : List Char) (schema : Schema)
    (hp : parse_text text = some (.ok schema)) :
    (∃ ts, compile_schema_file text = some (.ok ts)) ↔
      ((schema.structs.map StructDefn.name).Nodup ∧
       (∀ s ∈ schema.structs, Grounded schema.structs s.name) ∧
       mapContains schema.structs "root" = true ∧
       (∀ s ∈ schema.structs, ArrayLenCond s)) := by
  constructor
  · rintro ⟨ts, hts⟩
    simp only [compile_schema_file, hp] at hts
    cases htc : type_check_schema schema with
    | none =>
      simp only [htc] at hts
      exact Option.noConfusion hts
    | some res =>
      cases res with
      | error e =>
        simp only [htc] at hts
        rw [Option.some.injEq] at hts
        exact Except.noConfusion hts
      | ok ts2 =>
        simp only [htc] at hts
        cases hcs : check_schema ts2 with
        | error e =>
          simp only [hcs] at hts
          rw [Option.some.injEq] at hts
          exact Except.noConfusion hts
        | ok u =>
          cases u
          obtain ⟨hts2, hnd, hgr⟩ := (type_check_schema_spec schema ts2).mp htc
          subst hts2
          obtain ⟨hroot, harr⟩ := (check_schema_ok _).mp hcs
          exact ⟨hnd, hgr, hroot, harr⟩
  · rintro ⟨hnd, hgr, hroot, harr⟩
    have htc : type_check_schema schema = some (.ok ⟨schema.structs⟩) :=
      (type_check_schema_spec schema ⟨schema.structs⟩).mpr ⟨rfl, hnd, hgr⟩
    have hcs : check_schema ⟨schema.structs⟩ = .ok () :=
      (check_schema_ok _).mpr ⟨hroot, harr⟩
    refine ⟨⟨schema.structs⟩, ?_⟩
    simp only [compile_schema_file, hp, htc, hcs]

/-- Witness for C1_amended: the single-struct schema
`struct root {a: int8}` instantiates the corrected equivalence with
the hypothesis discharged by evaluation. -/
theorem C1_amended_witness :
    (∃ ts, compile_schema_file int8RootText = some (.ok ts)) ↔
      (((⟨int8RootSchema.types⟩ : Schema).structs.map
          StructDefn.name).Nodup ∧
       (∀ s ∈ (⟨int8RootSchema.types⟩ : Schema).structs,
         Grounded (⟨int8RootSchema.types⟩ : Schema).structs s.name) ∧
       mapContains (⟨int8RootSchema.types⟩ : Schema).structs "root" = true ∧
       (∀ s ∈ (⟨int8RootSchema.types⟩ : Schema).structs, ArrayLenCond s)) :=
  C1_amended int8RootText ⟨int8RootSchema.types⟩ rfl

/-- Counterexample to claim C1 as stated: `dupText` tokenises and
parses successfully and the claim's right-hand side holds (every
struct is grounded so the embedding graph is a DAG with built-in
leaves, `root` is present, and there are no arrays), yet
`compile_schema_file` fails with DuplicateType because two structs
share the name `root` — a failure condition the claim omits. -/
theorem C1_counterexample :
    parse_text dupText = some (.ok ⟨dupStructs⟩) ∧
    claimC1rhs dupStructs ∧
    compile_schema_file dupText =
      some (.error ⟨1, .DuplicateType "root"⟩) := by
  refine ⟨by rfl, ⟨?_, by decide, ?_⟩, by rfl⟩
  · intro s hs
    have hs2 : s = dupStruct := by
      simp only [dupStructs, List.mem_cons, List.not_mem_nil, or_false,
        or_self] at hs
      exact hs
    subst hs2
    refine Grounded.mk dupStruct (List.mem_cons_self _ _) ?_
    intro m hm hbf
    have hm2 : m = ⟨"a", 1, .TypeName "int8"⟩ := by
      simp only [dupStruct, List.mem_singleton] at hm
      exact hm
    subst hm2
    exact absurd hbf (by decide)
  · intro s hs i el arr id hel hkel hlenel
    have hs2 : s = dupStruct := by
      simp only [dupStructs, List.mem_cons, List.not_mem_nil, or_false,
        or_self] at hs
      exact hs
    subst hs2
    cases i with
    | zero =>
      injection hel with hel2
      subst hel2
      exact ElementTypeRef.noConfusion hkel
    | succ i2 =>
      exact Option.noConfusion hel

end Carta

